import Mathlib

/-!
The archive / unpack / remove engine of gopkgr, package `tar`.

A shallow embedding of `src/tar/tar.go`.  The Go functions become pure Lean
functions over an explicit file-system state:

* a path string is a Lean `String`; package `path` (`Clean`, `Join`, `Base`)
  is modelled at the level of the `/`-separated elements of a string;
* the file system is a finite tree of directories and regular files; a path
  handed to the operating system is resolved lexically from the root (the
  working directory is the root, there are no symbolic links), permission
  bits are recorded and not enforced;
* the `gzip` + `tar` container is a sequence of blocks: a header block
  followed by as many content blocks as its size field says.
-/

namespace Tar

/-! ## Strings and package `path` -/

/-- The elements of a character sequence separated by `/`, as `strings.Split(s, "/")`. -/
def splitSlash : List Char → List (List Char)
  | [] => [[]]
  | c :: cs =>
    if c = '/' then [] :: splitSlash cs
    else
      match splitSlash cs with
      | [] => [[c]]
      | h :: t => (c :: h) :: t

/-- The `/`-separated elements of a path string. -/
def elems (s : String) : List String :=
  (splitSlash s.data).map String.mk

/-- The inverse of `elems`: the elements joined by `/`. -/
def joinSlash : List String → String
  | [] => ""
  | [e] => e
  | e :: es => e ++ "/" ++ joinSlash es

/-- Whether the string starts with `/`. -/
def isRooted (s : String) : Bool :=
  s.data.head? = some '/'

/-- One element consumed by `path.Clean`.  The stack holds the elements kept
so far, the last one first: empty and `.` elements are dropped, `..` removes
the element before it, is dropped at the root of a rooted path and is kept at
the start of a relative path. -/
def cleanStep (rooted : Bool) (stack : List String) (e : String) : List String :=
  if e = "" ∨ e = "." then stack
  else if e = ".." then
    match stack with
    | [] => if rooted then [] else [".."]
    | top :: rest => if top = ".." then ".." :: top :: rest else rest
  else e :: stack

/-- The elements `path.Clean` keeps, in order. -/
def cleanElems (rooted : Bool) (es : List String) : List String :=
  (es.foldl (cleanStep rooted) []).reverse

/-- Model of `path.Clean`. -/
def Clean (s : String) : String :=
  let out := cleanElems (isRooted s) (elems s)
  if isRooted s then "/" ++ joinSlash out
  else if out = [] then "." else joinSlash out

/-- Model of `path.Join` for two elements: empty elements are ignored, the
result is cleaned, and two empty elements give the empty string. -/
def Join (a b : String) : String :=
  if a = "" then (if b = "" then "" else Clean b)
  else Clean (a ++ "/" ++ b)

/-- Model of `path.Base`: the last element, trailing slashes removed first;
`.` for the empty string and `/` for a string of slashes. -/
def Base (s : String) : String :=
  if s = "" then "."
  else
    match ((elems s).reverse.dropWhile (fun e => e = "")).head? with
    | some e => e
    | none => "/"

/-- Model of `strings.HasPrefix(s, ".")`. -/
def hasDotPrefix (s : String) : Bool :=
  s.data.head? = some '.'

/-- Model of `strings.HasSuffix(s, "/")`. -/
def hasSlashSuffix (s : String) : Bool :=
  s.data.getLast? = some '/'

/-- The source's `dirpath`. -/
def dirpath (path : String) : String :=
  if !hasSlashSuffix path then path ++ "/" else path

/-! ## The file system -/

/-- One block of a file's content: a raw byte, or the header record of an
archive member (name, kind, mode, size). -/
inductive Block where
  | raw (b : Nat)
  | header (name : String) (isDir : Bool) (mode : Nat) (size : Nat)
  deriving DecidableEq, Repr

/-- A node of the file-system tree. -/
inductive Node where
  | file (mode : Nat) (data : List Block)
  | dir (mode : Nat) (kids : List (String × Node))
  deriving Repr

/-- The file-system state: the tree and the umask of the process. -/
structure FS where
  root : Node
  umask : Nat

/-- What `os.Stat` reports about a node, with the content of a regular file. -/
structure Info where
  isDir : Bool
  mode : Nat
  data : List Block
  deriving DecidableEq, Repr

/-- The `Info` of a node. -/
def Node.info : Node → Info
  | .file m d => ⟨false, m, d⟩
  | .dir m _ => ⟨true, m, []⟩

/-- Whether the node is a directory. -/
def Node.isDir : Node → Bool
  | .file _ _ => false
  | .dir _ _ => true

/-- The entries of a directory node. -/
def Node.kids : Node → List (String × Node)
  | .file _ _ => []
  | .dir _ ks => ks

/-- The first entry of a directory listing with the given name. -/
def kid (c : String) : List (String × Node) → Option Node
  | [] => none
  | kn :: t => if kn.1 = c then some kn.2 else kid c t

/-- The node at a resolved path. -/
def Node.lookup : Node → List String → Option Node
  | n, [] => some n
  | .file _ _, _ :: _ => none
  | .dir _ ks, c :: cs =>
    match kid c ks with
    | some k => k.lookup cs
    | none => none

/-- The listing without the entries named `c`. -/
def dropKid (c : String) : List (String × Node) → List (String × Node)
  | [] => []
  | kn :: t => if kn.1 = c then dropKid c t else kn :: dropKid c t

/-- Replace, insert or delete the entry named `c` of a listing: `g` maps the
present state of the entry to the new one. -/
def alterKid (c : String) (g : Option Node → Option Node) :
    List (String × Node) → List (String × Node)
  | [] =>
    match g none with
    | some n => [(c, n)]
    | none => []
  | kn :: t =>
    if kn.1 = c then
      match g (some kn.2) with
      | some n => (c, n) :: dropKid c t
      | none => dropKid c t
    else kn :: alterKid c g t

/-- Apply `f` to the first entry named `c` of a listing. -/
def mapKid (c : String) (f : Node → Node) : List (String × Node) → List (String × Node)
  | [] => []
  | kn :: t => if kn.1 = c then (kn.1, f kn.2) :: t else kn :: mapKid c f t

/-- Replace, insert or delete the node at a resolved path whose parent is a
directory; the root itself and paths without a parent directory are left
alone. -/
def Node.alter : Node → List String → (Option Node → Option Node) → Node
  | n, [], _ => n
  | .file m d, _ :: _, _ => .file m d
  | .dir m ks, [c], g => .dir m (alterKid c g ks)
  | .dir m ks, c :: c2 :: cs, g => .dir m (mapKid c (fun k => k.alter (c2 :: cs) g) ks)

/-- Lexical resolution of a path string to the element list from the root.
The empty string names nothing. -/
def resolve (path : String) : Option (List String) :=
  if path = "" then none else some (cleanElems true (elems path))

/-- Errors of the engine: the failing operation of the operating system, or
the condition the source reports itself. -/
inductive Err where
  | stat
  | readDir
  | read
  | mkdir
  | mkdirAll
  | create
  | remove
  | format
  | sourceMissing
  | targetExists
  | archiveMissing
  | wouldOverwrite
  | panic
  | fatal
  | fuel
  deriving DecidableEq, Repr

/-- Model of `os.Stat`. -/
def Stat (fs : FS) (path : String) : Option Node :=
  match resolve path with
  | none => none
  | some p => fs.root.lookup p

/-- The permission bits left by the umask. -/
def masked (umask perm : Nat) : Nat :=
  perm &&& (0o777 ^^^ umask)

/-- Model of `os.Mkdir`: the parent must be a directory and the path must not
exist. -/
def Mkdir (fs : FS) (path : String) (perm : Nat) : Option Err × FS :=
  match resolve path with
  | none => (some .mkdir, fs)
  | some p =>
    match fs.root.lookup p with
    | some _ => (some .mkdir, fs)
    | none =>
      match fs.root.lookup p.dropLast with
      | some (.dir _ _) =>
        (none, { fs with root := fs.root.alter p (fun _ => some (.dir (masked fs.umask perm) [])) })
      | some (.file _ _) => (some .mkdir, fs)
      | none => (some .mkdir, fs)

/-- Model of `os.Create` followed by writing `data` and closing: an existing
regular file is truncated and keeps its mode, a new file gets mode `0666`
less the umask. -/
def CreateWrite (fs : FS) (path : String) (data : List Block) : Option Err × FS :=
  match resolve path with
  | none => (some .create, fs)
  | some p =>
    match fs.root.lookup p with
    | some (.dir _ _) => (some .create, fs)
    | some (.file m _) =>
      (none, { fs with root := fs.root.alter p (fun _ => some (.file m data)) })
    | none =>
      match fs.root.lookup p.dropLast with
      | some (.dir _ _) =>
        (none, { fs with root := fs.root.alter p (fun _ => some (.file (masked fs.umask 0o666) data)) })
      | some (.file _ _) => (some .create, fs)
      | none => (some .create, fs)

/-- Model of `os.Remove`: deletes a regular file or an empty directory. -/
def OsRemove (fs : FS) (path : String) : Option Err × FS :=
  match resolve path with
  | none => (some .remove, fs)
  | some p =>
    match fs.root.lookup p with
    | none => (some .remove, fs)
    | some (.file _ _) => (none, { fs with root := fs.root.alter p (fun _ => none) })
    | some (.dir _ []) => (none, { fs with root := fs.root.alter p (fun _ => none) })
    | some (.dir _ (_ :: _)) => (some .remove, fs)

/-- The loop of `os.MkdirAll` down the path: `done` is the part already known
to be a directory.  An existing directory is kept, a regular file in the way
is an error, a missing directory is created. -/
def mkdirAllFrom (perm : Nat) : List String → List String → Node → Except Err Node
  | _, [], n => .ok n
  | done, c :: cs, n =>
    match n.lookup (done ++ [c]) with
    | some (.dir _ _) => mkdirAllFrom perm (done ++ [c]) cs n
    | some (.file _ _) => .error .mkdirAll
    | none =>
      mkdirAllFrom perm (done ++ [c]) cs (n.alter (done ++ [c]) (fun _ => some (.dir perm [])))

/-- Model of `os.MkdirAll`. -/
def MkdirAll (fs : FS) (path : String) (perm : Nat) : Except Err FS :=
  match resolve path with
  | none => .error .mkdirAll
  | some p =>
    if fs.root.isDir then
      match mkdirAllFrom (masked fs.umask perm) [] p fs.root with
      | .ok r => .ok { fs with root := r }
      | .error e => .error e
    else .error .mkdirAll

/-- Byte-wise order of two strings, as `sort.Slice` on names uses it. -/
def strLe : List Char → List Char → Bool
  | [], _ => true
  | _ :: _, [] => false
  | a :: as, b :: bs =>
    if a.toNat < b.toNat then true
    else if b.toNat < a.toNat then false
    else strLe as bs

/-- The names of a listing, sorted by name. -/
def sortedNames (ks : List (String × Node)) : List String :=
  List.insertionSort (fun a b => strLe a.data b.data = true) (ks.map (fun kn => kn.1))

/-- Model of `ioutil.ReadDir`: the names of the entries, sorted by name. -/
def ReadDir (fs : FS) (path : String) : Option (List String) :=
  match Stat fs path with
  | some (.dir _ ks) => some (sortedNames ks)
  | _ => none

/-! ## The archive container -/

/-- One member of an archive: the fields of its header and its content. -/
structure Entry where
  name : String
  isDir : Bool
  mode : Nat
  data : List Block
  deriving DecidableEq, Repr

/-- What `tar.Writer` emits for a member: the header, then the content. -/
def encodeEntry (e : Entry) : List Block :=
  Block.header e.name e.isDir e.mode e.data.length :: e.data

/-- The container holding the given members. -/
def encode : List Entry → List Block
  | [] => []
  | e :: es => encodeEntry e ++ encode es

/-- The members `tar.Reader.Next` yields before the end of the stream, and
whether the stream ends with a format error instead of `io.EOF`. -/
def decodeAux : Nat → List Block → List Entry × Bool
  | 0, [] => ([], false)
  | 0, _ :: _ => ([], true)
  | _ + 1, [] => ([], false)
  | _ + 1, .raw _ :: _ => ([], true)
  | n + 1, .header name isDir mode size :: rest =>
    if rest.length < size then ([], true)
    else
      let r := decodeAux n (rest.drop size)
      (⟨name, isDir, mode, rest.take size⟩ :: r.1, r.2)

/-- Decoding of a whole container. -/
def decode (bs : List Block) : List Entry × Bool :=
  decodeAux bs.length bs

/-! ## `tar.go` -/

/-- The source's `Exists`: whether `os.Stat` succeeds. -/
def Exists (fs : FS) (path : String) : Bool :=
  match Stat fs path with
  | none => false
  | some _ => true

/-- The source's `Empty`: true when the path cannot be stat-ed, cannot be
listed, or is a directory without entries. -/
def Empty (fs : FS) (path : String) : Bool :=
  match Stat fs path with
  | none => true
  | some _ =>
    match ReadDir fs path with
    | none => true
    | some dir => dir.length == 0

/-- The source's `ProcessFile`: a file whose base name starts with `.` is
skipped, any other file contributes one member named `path`. -/
def ProcessFile (fs : FS) (pfx path : String) : Except Err (List Entry) :=
  let name := Base path
  if hasDotPrefix name then .ok []
  else
    let abs_path := Join pfx path
    match Stat fs abs_path with
    | none => .error .stat
    | some (.dir _ _) => .error .read
    | some (.file mode data) => .ok [⟨path, false, mode, data⟩]

/-- The loop of `ProcessDir` over the listing: `Process` on every entry, the
first error ends the walk. -/
def processEntries (process : String → Except Err (List Entry)) (path : String) :
    List String → Except Err (List Entry)
  | [] => .ok []
  | name :: rest =>
    match process (Join path name) with
    | .error e => .error e
    | .ok es =>
      match processEntries process path rest with
      | .error e => .error e
      | .ok es2 => .ok (es ++ es2)

/-- The body of `ProcessDir`, the recursive call to `Process` passed in: the
header of the directory, named `dirpath path`, then the entries. -/
def processDirWith (process : String → Except Err (List Entry)) (fs : FS)
    (pfx path : String) : Except Err (List Entry) :=
  let abs_path := Join pfx path
  match Stat fs abs_path with
  | none => .error .stat
  | some stat =>
    match ReadDir fs abs_path with
    | none => .error .readDir
    | some dir =>
      match processEntries process path dir with
      | .error e => .error e
      | .ok es => .ok (⟨dirpath path, true, stat.info.mode, []⟩ :: es)

/-- The source's `Process` with a bound on the depth of the recursion; a
failing `os.Stat` is the source's panic. -/
def ProcessFuel : Nat → FS → String → String → Except Err (List Entry)
  | 0, _, _, _ => .error .fuel
  | fuel + 1, fs, pfx, path =>
    let abs_path := Join pfx path
    match Stat fs abs_path with
    | none => .error .panic
    | some stat =>
      if stat.isDir then processDirWith (fun p => ProcessFuel fuel fs pfx p) fs pfx path
      else ProcessFile fs pfx path

mutual
/-- The number of directory levels below a node. -/
def Node.height : Node → Nat
  | .file _ _ => 0
  | .dir _ ks => 1 + kidsHeight ks
/-- The largest height among the entries of a listing. -/
def kidsHeight : List (String × Node) → Nat
  | [] => 0
  | kn :: t => max kn.2.height (kidsHeight t)
end

/-- The source's `Process`: the walk of `pfx/path`, the recursion bounded by
the height of the tree, which it never exceeds. -/
def Process (fs : FS) (pfx path : String) : Except Err (List Entry) :=
  ProcessFuel (fs.root.height + 1) fs pfx path

/-- The source's `ProcessDir`. -/
def ProcessDir (fs : FS) (pfx path : String) : Except Err (List Entry) :=
  processDirWith (fun p => Process fs pfx p) fs pfx path

/-- The source's `Archive`.  The target is created empty, the walk runs, and
the container is written; a failing walk deletes the target again. -/
def Archive (fs : FS) (pfx path target : String) : Option Err × FS :=
  if !Exists fs (Join pfx path) then (some .sourceMissing, fs)
  else if Exists fs target then (some .targetExists, fs)
  else
    match CreateWrite fs target [] with
    | (some _, fs1) => (some .fatal, fs1)
    | (none, fs1) =>
      match Process fs1 pfx path with
      | .error e => (some e, (OsRemove fs1 target).2)
      | .ok es => (none, (CreateWrite fs1 target (encode es)).2)

/-- The source's `open`: the archive must exist, the destination root is
created with `os.MkdirAll`, and the container is opened for reading.  The
result is the stream of members, or the error, and the file system after the
call. -/
def openArchive (fs : FS) (pfx source : String) : Except Err (List Entry × Bool) × FS :=
  if !Exists fs source then (.error .archiveMissing, fs)
  else
    match MkdirAll fs pfx 0o775 with
    | .error e => (.error e, fs)
    | .ok fs1 =>
      match Stat fs1 source with
      | some (.file _ data) => (.ok (decode data), fs1)
      | some (.dir _ _) => (.error .format, fs1)
      | none => (.error .read, fs1)

/-- The first loop of `Unpack`: the validate pass over the stream. -/
def validate (fs : FS) (pfx : String) : List Entry → Bool → Option Err
  | [], bad => if bad then some .format else none
  | hdr :: rest, bad =>
    let abs_path := Join pfx hdr.name
    if !hdr.isDir && Exists fs abs_path then some .wouldOverwrite
    else validate fs pfx rest bad

/-- The second loop of `Unpack`: the apply pass over the stream. -/
def apply (pfx : String) : FS → List Entry → Bool → Option Err × FS
  | fs, [], bad => (if bad then some .format else none, fs)
  | fs, hdr :: rest, bad =>
    let abs_path := Join pfx hdr.name
    if hdr.isDir then
      match Mkdir fs abs_path hdr.mode with
      | (some e, fs1) => (some e, fs1)
      | (none, fs1) => apply pfx fs1 rest bad
    else
      match CreateWrite fs abs_path hdr.data with
      | (some e, fs1) => (some e, fs1)
      | (none, fs1) => apply pfx fs1 rest bad

/-- The source's `Unpack`. -/
def Unpack (fs : FS) (pfx source : String) : Option Err × FS :=
  match openArchive fs pfx source with
  | (.error e, fs1) => (some e, fs1)
  | (.ok t, fs1) =>
    match validate fs1 pfx t.1 t.2 with
    | some e => (some e, fs1)
    | none =>
      match openArchive fs1 pfx source with
      | (.error e, fs2) => (some e, fs2)
      | (.ok t2, fs2) => apply pfx fs2 t2.1 t2.2

/-- One round of the deletion loop of `Remove`. -/
def removeStep (fs : FS) (path : String) : FS :=
  match Stat fs path with
  | none => fs
  | some stat =>
    if stat.isDir then
      if Empty fs path then (OsRemove fs path).2 else fs
    else (OsRemove fs path).2

/-- The deletion loop of `Remove` over the paths in the order it visits them. -/
def removeLoop : FS → List String → FS
  | fs, [] => fs
  | fs, path :: rest => removeLoop (removeStep fs path) rest

/-- The source's `Remove`: the destination paths of all members are
collected, then visited from the last to the first. -/
def Remove (fs : FS) (pfx source : String) : Option Err × FS :=
  match openArchive fs pfx source with
  | (.error e, fs1) => (some e, fs1)
  | (.ok t, fs1) =>
    if t.2 then (some .format, fs1)
    else
      let files := t.1.map (fun hdr => Join pfx hdr.name)
      (none, removeLoop fs1 files.reverse)

/-! ## The scenario of the specification -/

/-- The tree of the scenario: `R` holds `a/` with the file `a/f` (mode 0644,
content `hi`) and the empty directory `b/`; `D` is an empty directory. -/
def scenario : FS :=
  { root := .dir 0o755
      [("R", .dir 0o755
          [("b", .dir 0o755 []),
           ("a", .dir 0o755 [("f", .file 0o644 [.raw 104, .raw 105])])]),
       ("D", .dir 0o755 [])],
    umask := 0o022 }

/-! ## Notions used to state the properties -/

/-- The `Info` found at a resolved path. -/
def FS.infoAt (fs : FS) (p : List String) : Option Info :=
  (fs.root.lookup p).map Node.info

/-- The members `Unpack` and `Remove` read from the archive at `source`: the
members of its container up to the end of the stream or the first format
error, none when the archive cannot be opened. -/
def manifest (fs : FS) (source : String) : List Entry :=
  match Stat fs source with
  | some (.file _ data) => (decode data).1
  | _ => []

/-- One round of the deletion loop of `Remove` on the tree: a regular file or
an empty directory at the path is deleted. -/
def rmAt (n : Node) (p : List String) : Node :=
  match n.lookup p with
  | some (.file _ _) => n.alter p (fun _ => none)
  | some (.dir _ []) => n.alter p (fun _ => none)
  | _ => n

/-! ## Concrete file systems -/

/-- The members of the archive of the scenario as `Unpack` expects them: the
directory `a/`, the file `a/f` and the directory `b/`. -/
def pkg : List Entry :=
  [⟨"a/", true, 0o755, []⟩, ⟨"a/f", false, 0o644, [.raw 104, .raw 105]⟩, ⟨"b/", true, 0o755, []⟩]

/-- A file system with the destination directory `D` holding the given
entries and the archive `pkg.tgz` holding the given members. -/
def withArchive (es : List Entry) (dkids : List (String × Node)) : FS :=
  { root := .dir 0o755 [("D", .dir 0o755 dkids), ("pkg.tgz", .file 0o644 (encode es))],
    umask := 0o022 }

/-- The destination after `pkg` was unpacked and the unrelated file `a/x` was
added. -/
def installed : FS :=
  withArchive pkg
    [("a", .dir 0o755 [("f", .file 0o644 [.raw 104, .raw 105]), ("x", .file 0o600 [.raw 1])]),
     ("b", .dir 0o755 [])]

/-- A file `x` beside a missing destination root `D`, and an archive whose
only member, the file `../x`, climbs out of the root. -/
def escaping : FS :=
  { root := .dir 0o755
      [("x", .file 0o644 []),
       ("pkg.tgz", .file 0o644 (encode [⟨"../x", false, 0o644, []⟩]))],
    umask := 0o022 }

/-- A destination that holds the directory `a`, and an archive that holds the
file `f` and then the directory `a/`. -/
def clash : FS :=
  withArchive [⟨"f", false, 0o644, [.raw 1]⟩, ⟨"a/", true, 0o755, []⟩] [("a", .dir 0o755 [])]

/-- The path `q` lies strictly below the path `p`. -/
def Below (p q : List String) : Prop :=
  p <+: q ∧ p ≠ q

instance (p q : List String) : Decidable (Below p q) :=
  inferInstanceAs (Decidable (p <+: q ∧ p ≠ q))

/-- The resolved destination paths of the members, in manifest order. -/
def destPaths (pfx : String) (es : List Entry) : List (List String) :=
  es.filterMap (fun hdr => resolve (Join pfx hdr.name))

/-- Pre-order of destination paths: no path comes before a path it lies
below, so a directory comes before everything nested under it. -/
def PreOrder (ms : List (List String)) : Prop :=
  ms.Pairwise (fun a b => ¬ Below b a)

instance (ms : List (List String)) : Decidable (PreOrder ms) :=
  inferInstanceAs (Decidable (ms.Pairwise (fun a b => ¬ Below b a)))

/-- The entries of the directory at a resolved path, none when it is not a
directory. -/
def FS.kidsAt (fs : FS) (p : List String) : List (String × Node) :=
  match fs.root.lookup p with
  | some n => n.kids
  | none => []

/-- The destination after `pkg` was unpacked. -/
def unpacked : FS :=
  withArchive pkg
    [("a", .dir 0o755 [("f", .file 0o644 [.raw 104, .raw 105])]), ("b", .dir 0o755 [])]

/-- A destination where `x` is a directory holding `y`, and an archive whose
only member is the file `x`. -/
def kindClash : FS :=
  withArchive [⟨"x", false, 0o644, []⟩] [("x", .dir 0o755 [("y", .file 0o644 [])])]

/-- A destination holding `a/f`, and an archive that lists the file `a/f`
before the directory `a/`. -/
def unordered : FS :=
  withArchive [⟨"a/f", false, 0o644, []⟩, ⟨"a/", true, 0o755, []⟩]
    [("a", .dir 0o755 [("f", .file 0o644 [])])]

/-- A path on which a round of the deletion loop does nothing: the root, a
missing path, or a directory with entries. -/
def Settled (n : Node) (p : List String) : Prop :=
  p = [] ∨ n.lookup p = none ∨ ∃ m kn t, n.lookup p = some (.dir m (kn :: t))

/-- The tree after `os.MkdirAll` created the chain of directories `cs` below
the path `done`. -/
def addChain (perm : Nat) : Node → List String → List String → Node
  | n, _, [] => n
  | n, done, c :: cs =>
    addChain perm (n.alter (done ++ [c]) (fun _ => some (.dir perm []))) (done ++ [c]) cs

/-- The string has no `/`. -/
def SlashFree (e : String) : Prop :=
  '/' ∉ e.data

instance (e : String) : Decidable (SlashFree e) :=
  inferInstanceAs (Decidable ('/' ∉ e.data))

/-- A name as a directory listing holds it: not empty, not `.` or `..`, and
without `/`. -/
def PlainName (c : String) : Prop :=
  c ≠ "" ∧ c ≠ "." ∧ c ≠ ".." ∧ SlashFree c

instance (c : String) : Decidable (PlainName c) :=
  inferInstanceAs (Decidable (c ≠ "" ∧ c ≠ "." ∧ c ≠ ".." ∧ SlashFree c))

mutual
/-- Whether every listing of the tree holds plain names, each once, as the
listings of a file system do. -/
def Node.wellNamed : Node → Bool
  | .file _ _ => true
  | .dir _ ks => kidsWellNamed ks && decide ((ks.map (fun kn => kn.1)).Nodup)
/-- The entries of a listing have plain names and are well named. -/
def kidsWellNamed : List (String × Node) → Bool
  | [] => true
  | kn :: t => decide (PlainName kn.1) && kn.2.wellNamed && kidsWellNamed t
end

/-- The members the walk writes for the listed names of a directory. -/
def walkNames (walkKid : String → Node → List Entry) (path : String)
    (ks : List (String × Node)) : List String → List Entry
  | [] => []
  | c :: rest =>
    (match kid c ks with
      | some k => walkKid (Join path c) k
      | none => []) ++ walkNames walkKid path ks rest

/-- The members `Process` writes for a node reached under the name `path`,
read off the tree. -/
def walk : Nat → String → Node → List Entry
  | 0, _, _ => []
  | _ + 1, path, .file m d => if hasDotPrefix (Base path) then [] else [⟨path, false, m, d⟩]
  | fuel + 1, path, .dir m ks =>
    ⟨dirpath path, true, m, []⟩ :: walkNames (walk fuel) path ks (sortedNames ks)

/-- A directory that holds the file `f`, the hidden file `.x` and the hidden
directory `.git` with the file `config`. -/
def hiddenNode : Node :=
  .dir 0o755
    [("f", .file 0o644 [.raw 1]),
     (".x", .file 0o644 [.raw 2]),
     (".git", .dir 0o700 [("config", .file 0o600 [.raw 3])])]

/-- A file system that holds `hiddenNode` as `R`. -/
def hiddenTree : FS :=
  { root := .dir 0o755 [("R", hiddenNode)], umask := 0o022 }

/-- The tree `node` stands at the path `Q` of the file system: every
directory of it with its mode less the umask, and every regular file of it
whose name does not start with `.` with its content and the mode of a new
file.  `name` is the name of `node` itself. -/
def Copied (umask : Nat) (name : String) (node : Node) (Q : List String) (fs : FS) : Prop :=
  (∀ q m ks, node.lookup q = some (.dir m ks) →
    fs.infoAt (Q ++ q) = some ⟨true, masked umask m, []⟩) ∧
  (∀ q m d, node.lookup q = some (.file m d) →
    hasDotPrefix ((name :: q).getLast (List.cons_ne_nil _ _)) = false →
    fs.infoAt (Q ++ q) = some ⟨false, masked umask 0o666, d⟩)

/-- The tree of the scenario: `a/` with the file `a/f`, and the empty
directory `b/`. -/
def srcNode : Node :=
  .dir 0o755
    [("b", .dir 0o700 []),
     ("a", .dir 0o755 [("f", .file 0o644 [.raw 104, .raw 105])])]

/-- A file system with the tree of the scenario as `R/src`, the empty
destination `D` and no archive yet. -/
def sourceTree : FS :=
  { root := .dir 0o755 [("R", .dir 0o755 [("src", srcNode)]), ("D", .dir 0o755 [])],
    umask := 0o022 }


/-! ## Lemmas on listings and trees -/

theorem kid_cons_eq {c : String} (kn : String × Node) (t : List (String × Node))
    (h : kn.1 = c) : kid c (kn :: t) = some kn.2 := by
  simp [kid, h]

theorem kid_cons_ne {c : String} (kn : String × Node) (t : List (String × Node))
    (h : kn.1 ≠ c) : kid c (kn :: t) = kid c t := by
  simp [kid, h]

theorem kid_dropKid_self (c : String) (ks : List (String × Node)) :
    kid c (dropKid c ks) = none := by
  induction ks with
  | nil => rfl
  | cons kn t ih =>
    by_cases h : kn.1 = c
    · simpa [dropKid, h] using ih
    · rw [dropKid, if_neg h, kid_cons_ne _ _ h, ih]

theorem kid_dropKid_ne {c d : String} (h : d ≠ c) (ks : List (String × Node)) :
    kid d (dropKid c ks) = kid d ks := by
  induction ks with
  | nil => rfl
  | cons kn t ih =>
    by_cases h1 : kn.1 = c
    · have h2 : kn.1 ≠ d := by rw [h1]; exact Ne.symm h
      rw [dropKid, if_pos h1, kid_cons_ne _ _ h2, ih]
    · rw [dropKid, if_neg h1]
      by_cases h2 : kn.1 = d
      · rw [kid_cons_eq _ _ h2, kid_cons_eq _ _ h2]
      · rw [kid_cons_ne _ _ h2, kid_cons_ne _ _ h2, ih]

theorem kid_alterKid_self (c : String) (g : Option Node → Option Node)
    (ks : List (String × Node)) : kid c (alterKid c g ks) = g (kid c ks) := by
  induction ks with
  | nil =>
    simp only [alterKid, kid]
    cases g none <;> simp [kid]
  | cons kn t ih =>
    by_cases h : kn.1 = c
    · rw [alterKid, if_pos h, kid_cons_eq _ _ h]
      cases g (some kn.2) with
      | none => exact kid_dropKid_self c t
      | some n => exact kid_cons_eq _ _ rfl
    · rw [alterKid, if_neg h, kid_cons_ne _ _ h, kid_cons_ne _ _ h, ih]

theorem kid_alterKid_ne {c d : String} (h : d ≠ c) (g : Option Node → Option Node)
    (ks : List (String × Node)) : kid d (alterKid c g ks) = kid d ks := by
  induction ks with
  | nil =>
    simp only [alterKid]
    cases g none with
    | none => rfl
    | some n => exact kid_cons_ne _ _ (Ne.symm h)
  | cons kn t ih =>
    by_cases h1 : kn.1 = c
    · have h2 : kn.1 ≠ d := by rw [h1]; exact Ne.symm h
      rw [alterKid, if_pos h1, kid_cons_ne _ _ h2]
      cases g (some kn.2) with
      | none => exact kid_dropKid_ne h t
      | some n =>
        show kid d ((c, n) :: dropKid c t) = kid d t
        rw [kid_cons_ne _ _ (Ne.symm h)]
        exact kid_dropKid_ne h t
    · rw [alterKid, if_neg h1]
      by_cases h2 : kn.1 = d
      · rw [kid_cons_eq _ _ h2, kid_cons_eq _ _ h2]
      · rw [kid_cons_ne _ _ h2, kid_cons_ne _ _ h2, ih]

theorem kid_mapKid_self (c : String) (f : Node → Node) (ks : List (String × Node)) :
    kid c (mapKid c f ks) = (kid c ks).map f := by
  induction ks with
  | nil => rfl
  | cons kn t ih =>
    by_cases h : kn.1 = c
    · rw [mapKid, if_pos h, kid_cons_eq _ _ h, kid_cons_eq (kn.1, f kn.2) _ h]
      rfl
    · rw [mapKid, if_neg h, kid_cons_ne _ _ h, kid_cons_ne _ _ h, ih]

theorem kid_mapKid_ne {c d : String} (h : d ≠ c) (f : Node → Node) (ks : List (String × Node)) :
    kid d (mapKid c f ks) = kid d ks := by
  induction ks with
  | nil => rfl
  | cons kn t ih =>
    by_cases h1 : kn.1 = c
    · have h2 : kn.1 ≠ d := by rw [h1]; exact Ne.symm h
      rw [mapKid, if_pos h1, kid_cons_ne _ _ h2, kid_cons_ne (kn.1, f kn.2) _ h2]
    · rw [mapKid, if_neg h1]
      by_cases h2 : kn.1 = d
      · rw [kid_cons_eq _ _ h2, kid_cons_eq _ _ h2]
      · rw [kid_cons_ne _ _ h2, kid_cons_ne _ _ h2, ih]

theorem lookup_nil (n : Node) : n.lookup [] = some n := by
  cases n <;> rfl

theorem lookup_file_cons (m : Nat) (d : List Block) (c : String) (cs : List String) :
    (Node.file m d).lookup (c :: cs) = none := rfl

theorem lookup_dir_cons (m : Nat) (ks : List (String × Node)) (c : String) (cs : List String) :
    (Node.dir m ks).lookup (c :: cs) = (kid c ks).bind (fun k => k.lookup cs) := by
  simp only [Node.lookup]
  cases kid c ks <;> rfl

theorem lookup_append (n : Node) (p r : List String) :
    n.lookup (p ++ r) = (n.lookup p).bind (fun k => k.lookup r) := by
  induction p generalizing n with
  | nil => simp [lookup_nil]
  | cons c cs ih =>
    cases n with
    | file m d => simp [lookup_file_cons]
    | dir m ks =>
      simp only [List.cons_append, lookup_dir_cons]
      cases kid c ks with
      | none => rfl
      | some k => simp [ih]

theorem alter_nil (n : Node) (g : Option Node → Option Node) : n.alter [] g = n := by
  cases n <;> rfl

theorem alter_file (m : Nat) (d : List Block) (p : List String) (g : Option Node → Option Node) :
    (Node.file m d).alter p g = .file m d := by
  cases p <;> rfl

theorem info_alter (n : Node) (p : List String) (g : Option Node → Option Node) :
    (n.alter p g).info = n.info := by
  cases n with
  | file m d => rw [alter_file]
  | dir m ks =>
    match p with
    | [] => rfl
    | [c] => rfl
    | c :: c2 :: cs => rfl


theorem alter_dir_single (m : Nat) (ks : List (String × Node)) (c : String)
    (g : Option Node → Option Node) :
    (Node.dir m ks).alter [c] g = .dir m (alterKid c g ks) := rfl

theorem alter_dir_deep (m : Nat) (ks : List (String × Node)) (c c2 : String) (cs : List String)
    (g : Option Node → Option Node) :
    (Node.dir m ks).alter (c :: c2 :: cs) g =
      .dir m (mapKid c (fun k => k.alter (c2 :: cs) g) ks) := rfl

/-- Below a directory entry other than the first element of the altered
path, nothing changes. -/
theorem lookup_alter_cons_ne (n : Node) {c d : String} (h : d ≠ c) (cs ds : List String)
    (g : Option Node → Option Node) :
    (n.alter (c :: cs) g).lookup (d :: ds) = n.lookup (d :: ds) := by
  cases n with
  | file m dt => rw [alter_file]
  | dir m ks =>
    cases cs with
    | nil => rw [alter_dir_single, lookup_dir_cons, lookup_dir_cons, kid_alterKid_ne h]
    | cons c2 cs =>
      rw [alter_dir_deep, lookup_dir_cons, lookup_dir_cons,
        kid_mapKid_ne h (fun k => k.alter (c2 :: cs) g)]

/-- Below the first element of a longer altered path, the change happens in
the entry. -/
theorem lookup_alter_cons_deep (m : Nat) (ks : List (String × Node)) (c c2 : String)
    (cs ds : List String) (g : Option Node → Option Node) :
    ((Node.dir m ks).alter (c :: c2 :: cs) g).lookup (c :: ds) =
      (kid c ks).bind (fun k => (k.alter (c2 :: cs) g).lookup ds) := by
  rw [alter_dir_deep, lookup_dir_cons, kid_mapKid_self c (fun k => k.alter (c2 :: cs) g)]
  cases kid c ks <;> rfl

/-- Altering a path changes the `Info` of no path that is not at or below it. -/
theorem lookup_alter_info (n : Node) (p q : List String) (g : Option Node → Option Node)
    (h : ¬ p <+: q) :
    ((n.alter p g).lookup q).map Node.info = (n.lookup q).map Node.info := by
  induction p generalizing n q with
  | nil => exact absurd List.nil_prefix h
  | cons c cs ih =>
    cases q with
    | nil => simp [lookup_nil, info_alter]
    | cons d ds =>
      by_cases hd : d = c
      · subst hd
        have h2 : ¬ cs <+: ds := fun hp => h ((List.cons_prefix_cons).2 ⟨rfl, hp⟩)
        cases n with
        | file m dt => rw [alter_file]
        | dir m ks =>
          cases cs with
          | nil => exact absurd List.nil_prefix h2
          | cons c2 cs =>
            rw [lookup_alter_cons_deep, lookup_dir_cons]
            cases kid d ks with
            | none => rfl
            | some k => exact ih k ds h2
      · rw [lookup_alter_cons_ne n hd]

/-- At the altered path itself, when its parent is a directory, the new state
is what `g` makes of the old one. -/
theorem lookup_alter_self (n : Node) (q : List String) (c : String)
    (g : Option Node → Option Node) (m : Nat) (ks : List (String × Node))
    (h : n.lookup q = some (.dir m ks)) :
    (n.alter (q ++ [c]) g).lookup (q ++ [c]) = g (n.lookup (q ++ [c])) := by
  induction q generalizing n with
  | nil =>
    rw [lookup_nil] at h
    cases h
    simp only [List.nil_append]
    rw [alter_dir_single, lookup_dir_cons, lookup_dir_cons, kid_alterKid_self]
    cases kid c ks with
    | none =>
      simp only [Option.bind]
      cases hg : g none <;> simp [lookup_nil]
    | some k =>
      simp only [Option.bind, lookup_nil]
      cases hg : g (some k) <;> simp [lookup_nil]
  | cons d ds ih =>
    cases n with
    | file m2 dt => simp [lookup_file_cons] at h
    | dir m2 ks2 =>
      rw [lookup_dir_cons] at h
      cases hk : kid d ks2 with
      | none => simp [hk] at h
      | some k =>
        rw [hk] at h
        have h3 : k.lookup ds = some (.dir m ks) := h
        have hne : ds ++ [c] ≠ [] := by simp
        obtain ⟨c2, cs2, hcs⟩ : ∃ c2 cs2, ds ++ [c] = c2 :: cs2 := by
          cases hds : ds ++ [c] with
          | nil => exact absurd hds hne
          | cons a b => exact ⟨a, b, rfl⟩
        simp only [List.cons_append]
        rw [hcs, lookup_alter_cons_deep, lookup_dir_cons, hk, ← hcs]
        exact ih k h3

/-- Deleting a path brings nothing into existence. -/
theorem lookup_alter_none_isSome (n : Node) (p q : List String)
    (h : ((n.alter p (fun _ => none)).lookup q).isSome) : (n.lookup q).isSome := by
  induction p generalizing n q with
  | nil => rwa [alter_nil] at h
  | cons c cs ih =>
    cases q with
    | nil => simp [lookup_nil]
    | cons d ds =>
      by_cases hd : d = c
      · subst hd
        cases n with
        | file m dt => rwa [alter_file] at h
        | dir m ks =>
          cases cs with
          | nil =>
            rw [alter_dir_single, lookup_dir_cons, kid_alterKid_self] at h
            simp at h
          | cons c2 cs =>
            rw [lookup_alter_cons_deep] at h
            rw [lookup_dir_cons]
            cases hk : kid d ks with
            | none => simp [hk] at h
            | some k =>
              rw [hk] at h
              exact ih k ds h
      · rwa [lookup_alter_cons_ne n hd] at h

/-- A path that exists has a directory for a parent, which lists it. -/
theorem lookup_parent (n : Node) (q : List String) (c : String) (x : Node)
    (h : n.lookup (q ++ [c]) = some x) :
    ∃ m ks, n.lookup q = some (.dir m ks) ∧ kid c ks = some x := by
  rw [lookup_append] at h
  cases hq : n.lookup q with
  | none => simp [hq] at h
  | some k =>
    rw [hq] at h
    cases k with
    | file m d => simp [lookup_file_cons] at h
    | dir m ks =>
      refine ⟨m, ks, rfl, ?_⟩
      simp only [Option.bind, lookup_dir_cons] at h
      cases hk : kid c ks with
      | none => simp [hk] at h
      | some k2 => simpa [hk, lookup_nil] using h

theorem kid_head (kn : String × Node) (t : List (String × Node)) :
    kid kn.1 (kn :: t) = some kn.2 := kid_cons_eq kn t rfl

/-- Nothing exists below a regular file. -/
theorem lookup_below_file (n : Node) (p : List String) (c : String) (r : List String)
    (m : Nat) (d : List Block) (h : n.lookup p = some (.file m d)) :
    n.lookup (p ++ c :: r) = none := by
  rw [lookup_append, h]; rfl

/-- Nothing exists below an empty directory. -/
theorem lookup_below_empty (n : Node) (p : List String) (c : String) (r : List String)
    (m : Nat) (h : n.lookup p = some (.dir m [])) :
    n.lookup (p ++ c :: r) = none := by
  rw [lookup_append, h]; rfl

/-- A prefix of an existing path exists. -/
theorem lookup_prefix_isSome (n : Node) (p r : List String)
    (h : (n.lookup (p ++ r)).isSome) : (n.lookup p).isSome := by
  rw [lookup_append] at h
  cases hp : n.lookup p with
  | none => simp [hp] at h
  | some k => rfl

/-! ## Lemmas on `os.MkdirAll` -/

/-- A prefix of a path that leads to a directory is a directory. -/
theorem lookup_prefix_dir (n : Node) (p r : List String) (m : Nat) (ks : List (String × Node))
    (h : n.lookup (p ++ r) = some (.dir m ks)) :
    ∃ m2 ks2, n.lookup p = some (.dir m2 ks2) := by
  rw [lookup_append] at h
  cases hp : n.lookup p with
  | none => simp [hp] at h
  | some k =>
    cases k with
    | dir m2 ks2 => exact ⟨m2, ks2, rfl⟩
    | file m2 d =>
      rw [hp] at h
      cases r with
      | nil => simp [lookup_nil] at h
      | cons c r => simp [lookup_file_cons] at h

/-- Creating a node brings into existence only the path and what the new node
holds. -/
theorem lookup_alter_const (n : Node) (p q : List String) (y : Node)
    (h : ((n.alter p (fun _ => some y)).lookup q).isSome) :
    (n.lookup q).isSome ∨ ∃ t, q = p ++ t ∧ (y.lookup t).isSome := by
  induction p generalizing n q with
  | nil => left; rwa [alter_nil] at h
  | cons c cs ih =>
    cases q with
    | nil => left; simp [lookup_nil]
    | cons d ds =>
      by_cases hd : d = c
      · subst hd
        cases n with
        | file m dt => left; rwa [alter_file] at h
        | dir m ks =>
          cases cs with
          | nil =>
            rw [alter_dir_single, lookup_dir_cons, kid_alterKid_self] at h
            right
            exact ⟨ds, rfl, h⟩
          | cons c2 cs =>
            rw [lookup_alter_cons_deep] at h
            rw [lookup_dir_cons]
            cases hk : kid d ks with
            | none => simp [hk] at h
            | some k =>
              rw [hk] at h
              rcases ih k ds h with h1 | ⟨t, ht, hy⟩
              · left; exact h1
              · right; exact ⟨t, by rw [ht]; rfl, hy⟩
      · left; rwa [lookup_alter_cons_ne n hd] at h

theorem mkdirAllFrom_info (perm : Nat) (cs done : List String) (n r : Node)
    (h : mkdirAllFrom perm done cs n = .ok r) (q : List String) (hq : (n.lookup q).isSome) :
    (r.lookup q).map Node.info = (n.lookup q).map Node.info := by
  induction cs generalizing done n with
  | nil =>
    simp only [mkdirAllFrom] at h
    cases h; rfl
  | cons c cs ih =>
    simp only [mkdirAllFrom] at h
    cases hx : n.lookup (done ++ [c]) with
    | none =>
      rw [hx] at h
      have hnp : ¬ (done ++ [c]) <+: q := by
        rintro ⟨t, rfl⟩
        have := lookup_prefix_isSome n _ _ hq
        rw [hx] at this
        exact absurd this (by simp)
      have h1 := lookup_alter_info n (done ++ [c]) q (fun _ => some (.dir perm [])) hnp
      have h2 : ((n.alter (done ++ [c]) (fun _ => some (.dir perm []))).lookup q).isSome := by
        have := congrArg Option.isSome h1
        simpa [hq] using this
      rw [ih _ _ h h2, h1]
    | some k =>
      rw [hx] at h
      cases k with
      | file m d => simp at h
      | dir m ks => exact ih _ _ h hq

theorem mkdirAllFrom_isDir (perm : Nat) (cs done : List String) (n r : Node)
    (m : Nat) (ks : List (String × Node)) (hd : n.lookup done = some (.dir m ks))
    (h : mkdirAllFrom perm done cs n = .ok r) :
    ∃ m2 ks2, r.lookup (done ++ cs) = some (.dir m2 ks2) := by
  induction cs generalizing done n m ks with
  | nil =>
    simp only [mkdirAllFrom] at h
    cases h
    exact ⟨m, ks, by simpa using hd⟩
  | cons c cs ih =>
    simp only [mkdirAllFrom] at h
    have hassoc : done ++ c :: cs = (done ++ [c]) ++ cs := by simp
    rw [hassoc]
    cases hx : n.lookup (done ++ [c]) with
    | none =>
      rw [hx] at h
      have h1 := lookup_alter_self n done c (fun _ => some (.dir perm [])) m ks hd
      exact ih _ _ _ _ h1 h
    | some k =>
      rw [hx] at h
      cases k with
      | file m2 d => simp at h
      | dir m2 ks2 => exact ih _ _ _ _ hx h

theorem mkdirAllFrom_idem (perm : Nat) (cs done : List String) (n : Node)
    (m : Nat) (ks : List (String × Node)) (h : n.lookup (done ++ cs) = some (.dir m ks)) :
    mkdirAllFrom perm done cs n = .ok n := by
  induction cs generalizing done with
  | nil => rfl
  | cons c cs ih =>
    have hassoc : done ++ c :: cs = (done ++ [c]) ++ cs := by simp
    rw [hassoc] at h
    obtain ⟨m2, ks2, h2⟩ := lookup_prefix_dir n _ _ m ks h
    simp only [mkdirAllFrom, h2]
    exact ih _ h

theorem mkdirAllFrom_new (perm : Nat) (cs done : List String) (n r : Node)
    (h : mkdirAllFrom perm done cs n = .ok r) (q : List String) (hq : (r.lookup q).isSome) :
    (n.lookup q).isSome ∨ q <+: done ++ cs := by
  induction cs generalizing done n with
  | nil =>
    simp only [mkdirAllFrom] at h
    cases h; left; exact hq
  | cons c cs ih =>
    simp only [mkdirAllFrom] at h
    have hassoc : done ++ c :: cs = (done ++ [c]) ++ cs := by simp
    rw [hassoc]
    cases hx : n.lookup (done ++ [c]) with
    | none =>
      rw [hx] at h
      rcases ih _ _ h with h1 | h1
      · rcases lookup_alter_const n _ q _ h1 with h2 | ⟨t, ht, hy⟩
        · left; exact h2
        · right
          cases t with
          | nil => rw [ht, List.append_nil]; exact List.prefix_append _ _
          | cons a t => simp [lookup_dir_cons, kid] at hy
      · right; exact h1
    | some k =>
      rw [hx] at h
      cases k with
      | file m2 d => simp at h
      | dir m2 ks2 => exact ih _ _ h

theorem root_isDir_lookup (n : Node) (h : n.isDir = true) :
    ∃ m ks, n.lookup [] = some (.dir m ks) := by
  cases n with
  | file m d => simp [Node.isDir] at h
  | dir m ks => exact ⟨m, ks, rfl⟩

/-- `os.MkdirAll` leaves the umask alone. -/
theorem MkdirAll_umask (fs fs1 : FS) (path : String) (perm : Nat)
    (h : MkdirAll fs path perm = .ok fs1) : fs1.umask = fs.umask := by
  unfold MkdirAll at h
  cases hr : resolve path with
  | none => simp [hr] at h
  | some p =>
    simp only [hr] at h
    split at h
    · split at h
      · cases h; rfl
      · simp at h
    · simp at h

/-- `os.MkdirAll` changes the `Info` of no existing path. -/
theorem MkdirAll_info (fs fs1 : FS) (path : String) (perm : Nat)
    (h : MkdirAll fs path perm = .ok fs1) (q : List String) (hq : (fs.root.lookup q).isSome) :
    fs1.infoAt q = fs.infoAt q := by
  unfold MkdirAll at h
  cases hr : resolve path with
  | none => simp [hr] at h
  | some p =>
    simp only [hr] at h
    split at h
    · split at h
      · rename_i r hm
        cases h
        exact mkdirAllFrom_info _ _ _ _ _ hm q hq
      · simp at h
    · simp at h

/-- After `os.MkdirAll` the path is a directory. -/
theorem MkdirAll_isDir (fs fs1 : FS) (path : String) (perm : Nat)
    (h : MkdirAll fs path perm = .ok fs1) :
    ∃ p m ks, resolve path = some p ∧ fs1.root.lookup p = some (.dir m ks) := by
  unfold MkdirAll at h
  cases hr : resolve path with
  | none => simp [hr] at h
  | some p =>
    simp only [hr] at h
    split at h
    · rename_i hroot
      split at h
      · rename_i r hm
        cases h
        obtain ⟨m, ks, h0⟩ := root_isDir_lookup _ hroot
        obtain ⟨m2, ks2, h2⟩ := mkdirAllFrom_isDir _ _ _ _ _ m ks h0 hm
        exact ⟨p, m2, ks2, rfl, by simpa using h2⟩
      · simp at h
    · simp at h

/-- `os.MkdirAll` on a path that is a directory changes nothing. -/
theorem MkdirAll_idem (fs : FS) (path : String) (perm : Nat) (p : List String)
    (m : Nat) (ks : List (String × Node)) (hr : resolve path = some p)
    (h : fs.root.lookup p = some (.dir m ks)) : MkdirAll fs path perm = .ok fs := by
  unfold MkdirAll
  simp only [hr]
  have hroot : fs.root.isDir = true := by
    obtain ⟨m2, ks2, h2⟩ := lookup_prefix_dir fs.root [] p m ks (by simpa using h)
    rw [lookup_nil] at h2
    cases h2' : fs.root with
    | file a b => rw [h2'] at h2; simp at h2
    | dir a b => rfl
  rw [if_pos hroot, mkdirAllFrom_idem _ p [] fs.root m ks (by simpa using h)]

/-- `os.MkdirAll` creates nothing but the path and its prefixes. -/
theorem MkdirAll_new (fs fs1 : FS) (path : String) (perm : Nat)
    (h : MkdirAll fs path perm = .ok fs1) (q : List String) (hq : (fs1.root.lookup q).isSome) :
    (fs.root.lookup q).isSome ∨ ∃ p, resolve path = some p ∧ q <+: p := by
  unfold MkdirAll at h
  cases hr : resolve path with
  | none => simp [hr] at h
  | some p =>
    simp only [hr] at h
    split at h
    · split at h
      · rename_i r hm
        cases h
        rcases mkdirAllFrom_new _ _ _ _ _ hm q hq with h1 | h1
        · left; exact h1
        · right; exact ⟨p, rfl, by simpa using h1⟩
      · simp at h
    · simp at h

/-! ## Lemmas on the deletion loop -/

theorem fs_eta (fs : FS) : ({ fs with root := fs.root } : FS) = fs := by
  cases fs; rfl

theorem Empty_dir (fs : FS) (path : String) (m : Nat) (ks : List (String × Node))
    (h : Stat fs path = some (.dir m ks)) : Empty fs path = ks.isEmpty := by
  unfold Empty ReadDir
  simp only [h]
  cases ks with
  | nil => rfl
  | cons kn t =>
    have hlen := List.length_insertionSort (fun a b : String => strLe a.data b.data = true)
      (((kn :: t) : List (String × Node)).map (fun kn => kn.1))
    cases hsorted : sortedNames (kn :: t) with
    | nil => rw [sortedNames] at hsorted; rw [hsorted] at hlen; simp at hlen
    | cons a b => rfl

/-- A round of the deletion loop of `Remove` is a round of `rmAt` on the tree. -/
theorem removeStep_eq (fs : FS) (path : String) :
    removeStep fs path =
      match resolve path with
      | none => fs
      | some p => { fs with root := rmAt fs.root p } := by
  cases hr : resolve path with
  | none => simp [removeStep, Stat, hr]
  | some p =>
    simp only
    cases hl : fs.root.lookup p with
    | none => simp [removeStep, Stat, hr, hl, rmAt, fs_eta]
    | some k =>
      have hs : Stat fs path = some k := by simp [Stat, hr, hl]
      cases k with
      | file m d => simp [removeStep, hs, Node.isDir, OsRemove, hr, hl, rmAt]
      | dir m ks =>
        have he := Empty_dir fs path m ks hs
        cases ks with
        | nil => simp [removeStep, hs, Node.isDir, he, OsRemove, hr, hl, rmAt]
        | cons kn t => simp [removeStep, hs, Node.isDir, he, rmAt, hl, fs_eta]

/-- The resolved paths of a list of path strings. -/
theorem removeLoop_eq (paths : List String) (fs : FS) :
    removeLoop fs paths =
      { fs with root := (paths.filterMap resolve).foldl rmAt fs.root } := by
  induction paths generalizing fs with
  | nil => simp [removeLoop, fs_eta]
  | cons path rest ih =>
    rw [removeLoop, ih, removeStep_eq]
    cases hr : resolve path with
    | none => simp [List.filterMap_cons, hr]
    | some p => simp [List.filterMap_cons, hr]

/-- A round of the deletion loop brings nothing into existence. -/
theorem rmAt_isSome (n : Node) (p q : List String) (h : ((rmAt n p).lookup q).isSome) :
    (n.lookup q).isSome := by
  unfold rmAt at h
  split at h
  · exact lookup_alter_none_isSome n p q h
  · exact lookup_alter_none_isSome n p q h
  · exact h

/-- A round of the deletion loop at `p` keeps the `Info` of every prefix of
an existing path other than `p`. -/
theorem rmAt_info (n : Node) (p q : List String) (hq : (n.lookup q).isSome) (hne : p ≠ q)
    (d : List String) (hd : d <+: q) :
    ((rmAt n p).lookup d).map Node.info = (n.lookup d).map Node.info := by
  have key : ∀ t, q = p ++ t → ∃ c r, q = p ++ c :: r := by
    intro t ht
    cases t with
    | nil => exact absurd (by simpa using ht.symm) hne
    | cons c r => exact ⟨c, r, ht⟩
  unfold rmAt
  split
  · rename_i m dt hl
    apply lookup_alter_info
    intro hp
    obtain ⟨t, ht⟩ := hp.trans hd
    obtain ⟨c, r, hcr⟩ := key t ht.symm
    rw [hcr, lookup_below_file n p c r m dt hl] at hq
    simp at hq
  · rename_i m hl
    apply lookup_alter_info
    intro hp
    obtain ⟨t, ht⟩ := hp.trans hd
    obtain ⟨c, r, hcr⟩ := key t ht.symm
    rw [hcr, lookup_below_empty n p c r m hl] at hq
    simp at hq
  · rfl

/-- After a round of the deletion loop at a path other than the root, the
path is gone, or it is a directory with entries and nothing was deleted. -/
theorem rmAt_self (n : Node) (p : List String) (hp : p ≠ []) :
    (rmAt n p).lookup p = none ∨
      (rmAt n p = n ∧ ∃ m kn t, n.lookup p = some (.dir m (kn :: t))) := by
  obtain ⟨q, c, rfl⟩ : ∃ q c, p = q ++ [c] :=
    ⟨p.dropLast, p.getLast hp, (List.dropLast_append_getLast hp).symm⟩
  cases hl : n.lookup (q ++ [c]) with
  | none => left; simp [rmAt, hl]
  | some k =>
    obtain ⟨m0, ks0, hpar, _⟩ := lookup_parent n q c k hl
    cases k with
    | file m d =>
      left
      simp only [rmAt, hl]
      rw [lookup_alter_self n q c _ m0 ks0 hpar]
    | dir m ks =>
      cases ks with
      | nil =>
        left
        simp only [rmAt, hl]
        rw [lookup_alter_self n q c _ m0 ks0 hpar]
      | cons kn t =>
        right
        exact ⟨by simp [rmAt, hl], m, kn, t, rfl⟩

theorem foldl_rmAt_isSome (ps : List (List String)) (n : Node) (q : List String)
    (h : ((ps.foldl rmAt n).lookup q).isSome) : (n.lookup q).isSome := by
  induction ps generalizing n with
  | nil => exact h
  | cons p ps ih => exact rmAt_isSome n p q (ih _ h)

/-! ## Lemmas on `open` -/

theorem info_file (k : Node) (m : Nat) (d : List Block) (h : k.info = ⟨false, m, d⟩) :
    k = .file m d := by
  cases k with
  | file m2 d2 => simp only [Node.info, Info.mk.injEq] at h; rw [h.2.1, h.2.2]
  | dir m2 ks => simp [Node.info] at h

/-- The three ways `open` ends: before `os.MkdirAll` with the file system
untouched, after it with an error, or with the stream of the container. -/
theorem openArchive_spec (fs : FS) (pfx source : String) :
    (∃ e, openArchive fs pfx source = (.error e, fs)) ∨
    (∃ e fs1, openArchive fs pfx source = (.error e, fs1) ∧
      MkdirAll fs pfx 0o775 = .ok fs1) ∨
    (∃ fs1 m data, openArchive fs pfx source = (.ok (decode data), fs1) ∧
      MkdirAll fs pfx 0o775 = .ok fs1 ∧ Stat fs source = some (.file m data) ∧
      Stat fs1 source = some (.file m data)) := by
  unfold openArchive
  by_cases hex : Exists fs source = true
  · simp only [hex, Bool.not_true, Bool.false_eq_true, if_false]
    cases hm : MkdirAll fs pfx 0o775 with
    | error e => left; exact ⟨e, rfl⟩
    | ok fs1 =>
      right
      simp only
      cases hs : Stat fs1 source with
      | none => left; exact ⟨_, fs1, rfl, rfl⟩
      | some k =>
        cases k with
        | dir m ks => left; exact ⟨_, fs1, rfl, rfl⟩
        | file m data =>
          right
          refine ⟨fs1, m, data, rfl, rfl, ?_, hs⟩
          unfold Stat at hs ⊢
          unfold Exists Stat at hex
          cases hr : resolve source with
          | none => simp [hr] at hs
          | some s =>
            simp only [hr] at hs hex ⊢
            cases hl : fs.root.lookup s with
            | none => simp [hl] at hex
            | some k =>
              have hi := MkdirAll_info fs fs1 pfx _ hm s (by simp [hl])
              simp only [FS.infoAt, hs, hl, Option.map_some'] at hi
              have := info_file k m data (Option.some.inj hi).symm
              rw [this]
  · left
    refine ⟨.archiveMissing, ?_⟩
    simp [hex]

/-- A second `open` after a successful one finds the same stream and changes
nothing. -/
theorem openArchive_again (fs fs1 : FS) (pfx source : String) (t : List Entry × Bool)
    (h : openArchive fs pfx source = (.ok t, fs1)) :
    openArchive fs1 pfx source = (.ok t, fs1) := by
  rcases openArchive_spec fs pfx source with ⟨e, he⟩ | ⟨e, fs2, he, _⟩ | ⟨fs2, m, data, he, hm, _, hs1⟩
  · rw [he] at h; simp at h
  · rw [he] at h; simp at h
  · rw [he] at h
    simp only [Prod.mk.injEq, Except.ok.injEq] at h
    obtain ⟨ht, hfs⟩ := h
    subst hfs
    subst ht
    obtain ⟨p, m2, ks2, hr, hd⟩ := MkdirAll_isDir fs fs2 pfx _ hm
    have hidem := MkdirAll_idem fs2 pfx 0o775 p m2 ks2 hr hd
    unfold openArchive
    have hex : Exists fs2 source = true := by simp [Exists, hs1]
    simp [hex, hidem, hs1]

/-! ## Lemmas on package `path` -/

theorem splitSlash_ne_nil (cs : List Char) : splitSlash cs ≠ [] := by
  cases cs with
  | nil => simp [splitSlash]
  | cons c cs =>
    unfold splitSlash
    split
    · simp
    · split <;> simp

theorem splitSlash_cons_slash (cs : List Char) : splitSlash ('/' :: cs) = [] :: splitSlash cs := by
  simp [splitSlash]

theorem splitSlash_cons_of_ne (c : Char) (cs : List Char) (hc : c ≠ '/') :
    splitSlash (c :: cs) = (c :: (splitSlash cs).headD []) :: (splitSlash cs).tail := by
  simp only [splitSlash, hc, if_false]
  cases hs : splitSlash cs with
  | nil => exact absurd hs (splitSlash_ne_nil cs)
  | cons h t => rfl

theorem splitSlash_append (a b : List Char) :
    splitSlash (a ++ '/' :: b) = splitSlash a ++ splitSlash b := by
  induction a with
  | nil => simp [splitSlash]
  | cons c a ih =>
    by_cases hc : c = '/'
    · subst hc
      rw [List.cons_append, splitSlash_cons_slash, splitSlash_cons_slash, ih]
      rfl
    · rw [List.cons_append, splitSlash_cons_of_ne _ _ hc, splitSlash_cons_of_ne _ _ hc, ih]
      cases hs : splitSlash a with
      | nil => exact absurd hs (splitSlash_ne_nil a)
      | cons h t => rfl

theorem splitSlash_of_not_mem (x : List Char) (h : '/' ∉ x) : splitSlash x = [x] := by
  induction x with
  | nil => rfl
  | cons c x ih =>
    have hc : c ≠ '/' := fun e => h (by simp [e])
    have hx : '/' ∉ x := fun e => h (List.mem_cons_of_mem _ e)
    simp [splitSlash, hc, ih hx]

theorem splitSlash_not_mem (cs : List Char) : ∀ x ∈ splitSlash cs, '/' ∉ x := by
  induction cs with
  | nil => simp [splitSlash]
  | cons c cs ih =>
    by_cases hc : c = '/'
    · simp only [splitSlash, hc, if_true]
      intro x hx
      rcases List.mem_cons.1 hx with rfl | h
      · simp
      · exact ih x h
    · simp only [splitSlash, hc, if_false]
      cases hs : splitSlash cs with
      | nil => exact absurd hs (splitSlash_ne_nil cs)
      | cons h t =>
        rw [hs] at ih
        intro x hx
        rcases List.mem_cons.1 hx with rfl | hmem
        · intro hmem2
          rcases List.mem_cons.1 hmem2 with e | e
          · exact hc e.symm
          · exact ih h (List.mem_cons_self _ _) e
        · exact ih x (List.mem_cons_of_mem _ hmem)

theorem elems_slashFree (s : String) : ∀ e ∈ elems s, SlashFree e := by
  intro e he
  simp only [elems, List.mem_map] at he
  obtain ⟨x, hx, rfl⟩ := he
  exact splitSlash_not_mem _ x hx

theorem elems_append (a b : String) : elems (a ++ "/" ++ b) = elems a ++ elems b := by
  simp only [elems, String.data_append]
  rw [List.append_assoc, List.singleton_append, splitSlash_append, List.map_append]

theorem elems_of_slashFree (e : String) (h : SlashFree e) : elems e = [e] := by
  simp [elems, splitSlash_of_not_mem e.data h]

theorem elems_empty : elems "" = [""] := rfl

theorem elems_joinSlash (es : List String) (hne : es ≠ []) (h : ∀ e ∈ es, SlashFree e) :
    elems (joinSlash es) = es := by
  induction es with
  | nil => exact absurd rfl hne
  | cons e es ih =>
    cases es with
    | nil => exact elems_of_slashFree e (h e (List.mem_cons_self _ _))
    | cons e2 es =>
      rw [joinSlash, elems_append, elems_of_slashFree e (h e (List.mem_cons_self _ _)),
        ih (by simp) (fun x hx => h x (List.mem_cons_of_mem _ hx))]
      · rfl
      · simp

theorem cleanStep_skip (r : Bool) (S : List String) (e : String) (h : e = "" ∨ e = ".") :
    cleanStep r S e = S := by
  simp [cleanStep, h]

theorem cleanStep_push (r : Bool) (S : List String) (e : String) (h1 : e ≠ "") (h2 : e ≠ ".")
    (h3 : e ≠ "..") : cleanStep r S e = e :: S := by
  simp [cleanStep, h1, h2, h3]

theorem cleanStep_pop (r : Bool) (S : List String) (top : String) (h : top ≠ "..") :
    cleanStep r (top :: S) ".." = S := by
  simp [cleanStep, h]

theorem cleanStep_keep (r : Bool) (S : List String) :
    cleanStep r (".." :: S) ".." = ".." :: ".." :: S := by
  simp [cleanStep]

theorem cleanStep_plain (r : Bool) (S : List String) (e : String) (h : PlainName e) :
    cleanStep r S e = e :: S :=
  cleanStep_push r S e h.1 h.2.1 h.2.2.1

/-- What `path.Clean` keeps is never empty or `.`, and is an element it was
given or `..`. -/
theorem foldl_cleanStep_mem (r : Bool) (B : List String) (S : List String) :
    ∀ x ∈ B.foldl (cleanStep r) S, x ∈ S ∨ (x ≠ "" ∧ x ≠ "." ∧ (x ∈ B ∨ x = "..")) := by
  induction B generalizing S with
  | nil => intro x hx; exact Or.inl hx
  | cons e B ih =>
    intro x hx
    rw [List.foldl_cons] at hx
    rcases ih _ x hx with h | ⟨h1, h2, h3⟩
    · unfold cleanStep at h
      split at h
      · exact Or.inl h
      · rename_i hne
        push_neg at hne
        split at h
        · rename_i hdd
          split at h
          · split at h
            · simp at h
            · simp only [List.mem_singleton] at h
              right
              exact ⟨by rw [h]; decide, by rw [h]; decide, Or.inr h⟩
          · split at h
            · rcases List.mem_cons.1 h with h | h
              · right
                exact ⟨by rw [h]; decide, by rw [h]; decide, Or.inr h⟩
              · exact Or.inl h
            · exact Or.inl (List.mem_cons_of_mem _ h)
        · rcases List.mem_cons.1 h with h | h
          · right
            exact ⟨by rw [h]; exact hne.1, by rw [h]; exact hne.2,
              Or.inl (by rw [h]; exact List.mem_cons_self _ _)⟩
          · exact Or.inl h
    · right
      refine ⟨h1, h2, ?_⟩
      rcases h3 with h3 | h3
      · exact Or.inl (List.mem_cons_of_mem _ h3)
      · exact Or.inr h3

theorem cleanElems_mem (r : Bool) (B : List String) :
    ∀ x ∈ cleanElems r B, x ≠ "" ∧ x ≠ "." ∧ (x ∈ B ∨ x = "..") := by
  intro x hx
  rw [cleanElems, List.mem_reverse] at hx
  rcases foldl_cleanStep_mem r B [] x hx with h | h
  · simp at h
  · exact h

theorem slashFree_dotdot : SlashFree ".." := by decide

theorem cleanElems_slashFree (r : Bool) (s : String) : ∀ x ∈ cleanElems r (elems s), SlashFree x := by
  intro x hx
  rcases (cleanElems_mem r _ x hx).2.2 with h | h
  · exact elems_slashFree s x h
  · rw [h]; exact slashFree_dotdot

/-- A rooted path keeps no `..`. -/
theorem foldl_cleanStep_true (B : List String) (S : List String) (hS : ∀ x ∈ S, x ≠ "..") :
    ∀ x ∈ B.foldl (cleanStep true) S, x ≠ ".." := by
  induction B generalizing S with
  | nil => exact hS
  | cons e B ih =>
    rw [List.foldl_cons]
    apply ih
    intro x hx
    unfold cleanStep at hx
    split at hx
    · exact hS x hx
    · split at hx
      · split at hx
        · simp at hx
        · rename_i top rest
          split at hx
          · rename_i htop
            exact absurd htop (hS top (List.mem_cons_self _ _))
          · exact hS x (List.mem_cons_of_mem _ hx)
      · rename_i h1 h2
        rcases List.mem_cons.1 hx with h | h
        · rw [h]; exact h2
        · exact hS x h

theorem cleanElems_append_plain (r : Bool) (B : List String) (e : String) (h : PlainName e) :
    cleanElems r (B ++ [e]) = cleanElems r B ++ [e] := by
  simp [cleanElems, List.foldl_append, cleanStep_plain r _ e h]

theorem cleanElems_append_skip (r : Bool) (B : List String) (e : String) (h : e = "" ∨ e = ".") :
    cleanElems r (B ++ [e]) = cleanElems r B := by
  simp [cleanElems, List.foldl_append, cleanStep_skip r _ e h]

theorem cleanElems_cons_skip (r : Bool) (B : List String) (e : String) (h : e = "" ∨ e = ".") :
    cleanElems r (e :: B) = cleanElems r B := by
  simp [cleanElems, cleanStep_skip r _ e h]

/-- Cleaning a relative path first makes no difference to the cleaning of a
longer path. -/
theorem foldl_cleanElems_false (r : Bool) (B : List String) (S : List String) :
    (cleanElems false B).foldl (cleanStep r) S = B.foldl (cleanStep r) S := by
  induction B using List.reverseRecOn with
  | nil => rfl
  | append_singleton B x ih =>
    have hmem := foldl_cleanStep_mem false B []
    rw [List.foldl_append, List.foldl_cons, List.foldl_nil, ← ih]
    simp only [cleanElems, List.foldl_append, List.foldl_cons, List.foldl_nil]
    generalize hT : List.foldl (cleanStep false) [] B = T at hmem
    by_cases hskip : x = "" ∨ x = "."
    · rw [cleanStep_skip _ _ _ hskip, cleanStep_skip _ _ _ hskip]
    · push_neg at hskip
      by_cases hdd : x = ".."
      · subst hdd
        cases T with
        | nil => simp [cleanStep]
        | cons top rest =>
          by_cases htop : top = ".."
          · subst htop
            rw [cleanStep_keep]
            simp [List.foldl_append]
          · rw [cleanStep_pop _ _ _ htop]
            have htop2 := hmem top (List.mem_cons_self _ _)
            simp only [List.not_mem_nil, false_or] at htop2
            simp only [List.reverse_cons, List.foldl_append, List.foldl_cons, List.foldl_nil]
            rw [cleanStep_push r _ top htop2.1 htop2.2.1 htop, cleanStep_pop _ _ _ htop]
      · rw [cleanStep_push false _ x hskip.1 hskip.2 hdd]
        simp [List.foldl_append]

theorem cleanElems_cleanElems_false (r : Bool) (A B : List String) :
    cleanElems r (A ++ cleanElems false B) = cleanElems r (A ++ B) := by
  simp only [cleanElems, List.foldl_append]
  rw [← foldl_cleanElems_false r B]
  rfl

/-- Cleaning what a rooted cleaning kept changes nothing. -/
theorem cleanElems_true_idem (B : List String) :
    cleanElems true (cleanElems true B) = cleanElems true B := by
  have h1 := cleanElems_mem true B
  have h2 : ∀ x ∈ cleanElems true B, x ≠ ".." := by
    intro x hx
    rw [cleanElems, List.mem_reverse] at hx
    exact foldl_cleanStep_true B [] (by simp) x hx
  generalize cleanElems true B = L at h1 h2
  induction L using List.reverseRecOn with
  | nil => rfl
  | append_singleton L x ih =>
    have hx1 := h1 x (by simp)
    have hx2 := h2 x (by simp)
    simp only [cleanElems, List.foldl_append, List.foldl_cons, List.foldl_nil]
    rw [cleanStep_push true _ x hx1.1 hx1.2.1 hx2]
    simp only [List.reverse_cons]
    have := ih (fun y hy => h1 y (by simp [hy])) (fun y hy => h2 y (by simp [hy]))
    simp only [cleanElems] at this
    rw [this]

theorem data_ne_nil_of_ne_empty (s : String) (h : s ≠ "") : s.data ≠ [] := by
  intro hd
  apply h
  cases s
  simp only at hd
  rw [hd]

theorem ne_empty_of_data (s : String) (c : Char) (cs : List Char) (h : s.data = c :: cs) :
    s ≠ "" := by
  intro hs
  rw [hs] at h
  cases h

theorem joinSlash_data (e : String) (es : List String) :
    ∃ t, (joinSlash (e :: es)).data = e.data ++ t := by
  cases es with
  | nil => exact ⟨[], by simp [joinSlash]⟩
  | cons e2 es => exact ⟨'/' :: (joinSlash (e2 :: es)).data, by simp [joinSlash, String.data_append]⟩

theorem slash_append_data (t : String) : ("/" ++ t).data = '/' :: t.data := by
  simp [String.data_append]

theorem elems_slash_append (t : String) : elems ("/" ++ t) = "" :: elems t := by
  have h : ("/" ++ t : String) = "" ++ "/" ++ t := rfl
  rw [h, elems_append]
  rfl

theorem Clean_ne_empty (s : String) : Clean s ≠ "" := by
  unfold Clean
  simp only
  split
  · exact ne_empty_of_data _ '/' _ (slash_append_data _)
  · split
    · decide
    · rename_i hout
      cases hc : cleanElems (isRooted s) (elems s) with
      | nil => exact absurd hc hout
      | cons e es =>
        have he : e ≠ "" := (cleanElems_mem _ _ e (by rw [hc]; exact List.mem_cons_self _ _)).1
        obtain ⟨t, ht⟩ := joinSlash_data e es
        cases hd : e.data with
        | nil => exact absurd hd (data_ne_nil_of_ne_empty e he)
        | cons c cs =>
          rw [hd] at ht
          exact ne_empty_of_data _ c _ ht

/-- The resolution of a cleaned path is the resolution of the path. -/
theorem cleanElems_Clean (s : String) :
    cleanElems true (elems (Clean s)) = cleanElems true (elems s) := by
  unfold Clean
  simp only
  by_cases hr : isRooted s = true
  · rw [if_pos hr, elems_slash_append, cleanElems_cons_skip _ _ _ (Or.inl rfl), hr]
    cases hc : cleanElems true (elems s) with
    | nil => rfl
    | cons e es =>
      rw [← hc, elems_joinSlash _ (by rw [hc]; simp) (cleanElems_slashFree true s),
        cleanElems_true_idem]
  · rw [if_neg hr]
    have hr2 : isRooted s = false := by simpa using hr
    rw [hr2]
    have key := cleanElems_cleanElems_false true [] (elems s)
    simp only [List.nil_append] at key
    split
    · rename_i hout
      rw [hout] at key
      rw [← key]
      rfl
    · rename_i hout
      rw [elems_joinSlash _ hout (cleanElems_slashFree false s), key]

theorem resolve_of_ne_empty (s : String) (h : s ≠ "") :
    resolve s = some (cleanElems true (elems s)) := by
  simp [resolve, h]

theorem resolve_Clean (s : String) : resolve (Clean s) = some (cleanElems true (elems s)) := by
  rw [resolve_of_ne_empty _ (Clean_ne_empty s), cleanElems_Clean]

/-- The destination of a joined path: the elements of both parts, cleaned
from the root. -/
theorem resolve_Join (a b : String) (h : ¬ (a = "" ∧ b = "")) :
    resolve (Join a b) = some (cleanElems true (elems a ++ elems b)) := by
  unfold Join
  by_cases ha : a = ""
  · have hb : b ≠ "" := fun e => h ⟨ha, e⟩
    rw [if_pos ha, if_neg hb, resolve_Clean, ha, elems_empty]
    exact congrArg some (cleanElems_cons_skip true _ "" (Or.inl rfl)).symm
  · rw [if_neg ha, resolve_Clean, elems_append]

theorem Join_empty (a b : String) (h : a = "" ∧ b = "") : Join a b = "" := by
  simp [Join, h.1, h.2]

theorem Join_ne_empty (a b : String) (h : ¬ (a = "" ∧ b = "")) : Join a b ≠ "" := by
  unfold Join
  by_cases ha : a = ""
  · have hb : b ≠ "" := fun e => h ⟨ha, e⟩
    rw [if_pos ha, if_neg hb]
    exact Clean_ne_empty b
  · rw [if_neg ha]
    exact Clean_ne_empty _

theorem resolve_Join_some (a b : String) (P : List String) (h : resolve (Join a b) = some P) :
    ¬ (a = "" ∧ b = "") := by
  intro hab
  rw [Join_empty a b hab] at h
  simp [resolve] at h

theorem isRooted_append (a t : String) (h : a ≠ "") : isRooted (a ++ t) = isRooted a := by
  unfold isRooted
  rw [String.data_append]
  cases hd : a.data with
  | nil => exact absurd hd (data_ne_nil_of_ne_empty a h)
  | cons c cs => rfl

theorem isRooted_joinSlash (e : String) (es : List String) (h1 : e ≠ "") (h2 : SlashFree e) :
    isRooted (joinSlash (e :: es)) = false := by
  obtain ⟨t, ht⟩ := joinSlash_data e es
  unfold isRooted
  rw [ht]
  cases hd : e.data with
  | nil => exact absurd hd (data_ne_nil_of_ne_empty e h1)
  | cons c cs =>
    have hc : c ≠ '/' := by
      intro hc
      apply h2
      rw [SlashFree, hd, hc] at *
      simp
    simp [hc]

/-- The elements of a relative path extended by a name. -/
theorem cleanElems_Join_plain (path c : String) (hc : PlainName c) :
    cleanElems false (if path = "" then elems c else elems (path ++ "/" ++ c)) =
      cleanElems false (elems path) ++ [c] := by
  split
  · rename_i hp
    rw [hp, elems_empty, elems_of_slashFree c hc.2.2.2]
    rw [cleanElems_cons_skip _ _ _ (Or.inl rfl)]
    simp [cleanElems, cleanStep_plain _ _ c hc]
  · rw [elems_append, elems_of_slashFree c hc.2.2.2, cleanElems_append_plain _ _ _ hc]

/-- Joining a name to a relative path appends it to the cleaned path. -/
theorem Join_plain (path c : String) (hrel : isRooted path = false) (hc : PlainName c) :
    Join path c = joinSlash (cleanElems false (elems path) ++ [c]) := by
  have key := cleanElems_Join_plain path c hc
  unfold Join Clean
  by_cases hp : path = ""
  · have hcr : isRooted c = false := by
      have := isRooted_joinSlash c [] hc.1 hc.2.2.2
      simpa [joinSlash] using this
    simp only [hp, if_true, if_neg hc.1, hcr, Bool.false_eq_true, if_false] at key ⊢
    rw [key]
    simp
  · have hr : isRooted (path ++ "/" ++ c) = false := by
      rw [String.append_assoc, isRooted_append path _ hp, hrel]
    simp only [if_neg hp, hr, Bool.false_eq_true, if_false] at key ⊢
    rw [key]
    simp

theorem plain_slashFree_list (path c : String) (hc : PlainName c) :
    ∀ e ∈ cleanElems false (elems path) ++ [c], SlashFree e := by
  intro e he
  rcases List.mem_append.1 he with h | h
  · exact cleanElems_slashFree false path e h
  · rw [List.mem_singleton.1 h]; exact hc.2.2.2

theorem elems_Join_plain (path c : String) (hrel : isRooted path = false) (hc : PlainName c) :
    elems (Join path c) = cleanElems false (elems path) ++ [c] := by
  rw [Join_plain path c hrel hc, elems_joinSlash _ (by simp) (plain_slashFree_list path c hc)]

theorem isRooted_Join_plain (path c : String) (hrel : isRooted path = false)
    (hc : PlainName c) : isRooted (Join path c) = false := by
  rw [Join_plain path c hrel hc]
  cases hx : cleanElems false (elems path) with
  | nil => exact isRooted_joinSlash c [] hc.1 hc.2.2.2
  | cons e es =>
    have he := cleanElems_mem false _ e (by rw [hx]; exact List.mem_cons_self _ _)
    have hs := cleanElems_slashFree false path e (by rw [hx]; exact List.mem_cons_self _ _)
    exact isRooted_joinSlash e (es ++ [c]) he.1 hs

theorem Join_plain_ne_empty (path c : String) (hc : PlainName c) : Join path c ≠ "" :=
  Join_ne_empty path c (fun h => hc.1 h.2)

/-- The destination of a child: the destination of the directory, then the
name. -/
theorem resolve_Join_Join (pfx path c : String) (P : List String)
    (hrel : isRooted path = false) (hc : PlainName c)
    (h : resolve (Join pfx path) = some P) :
    resolve (Join pfx (Join path c)) = some (P ++ [c]) := by
  have hne := resolve_Join_some pfx path P h
  rw [resolve_Join pfx path hne] at h
  rw [resolve_Join pfx (Join path c) (fun e => Join_plain_ne_empty path c hc e.2),
    elems_Join_plain path c hrel hc, ← List.append_assoc, cleanElems_append_plain _ _ _ hc,
    cleanElems_cleanElems_false, Option.some.inj h]

/-- The base name of a child is its name. -/
theorem Base_Join_plain (path c : String) (hrel : isRooted path = false) (hc : PlainName c) :
    Base (Join path c) = c := by
  unfold Base
  rw [if_neg (Join_plain_ne_empty path c hc), elems_Join_plain path c hrel hc]
  simp [List.dropWhile, hc.1]

/-- The trailing slash of a directory name does not change its destination. -/
theorem resolve_Join_dirpath (pfx path : String) (h : ¬ (pfx = "" ∧ path = "")) :
    resolve (Join pfx (dirpath path)) = resolve (Join pfx path) := by
  unfold dirpath
  split
  · have h1 : path ++ "/" = path ++ "/" ++ "" := by simp
    have h2 : ¬ (pfx = "" ∧ path ++ "/" = "") := by
      intro e
      have := congrArg String.data e.2
      simp [String.data_append] at this
    rw [resolve_Join _ _ h2, resolve_Join _ _ h, h1, elems_append, elems_empty,
      ← List.append_assoc, cleanElems_append_skip _ _ _ (Or.inl rfl)]
  · rfl

/-! ## Lemmas on the walk -/

theorem kidsWellNamed_mem (ks : List (String × Node)) (h : kidsWellNamed ks = true) :
    ∀ kn ∈ ks, PlainName kn.1 ∧ kn.2.wellNamed = true := by
  induction ks with
  | nil => intro kn hkn; simp at hkn
  | cons x t ih =>
    simp only [kidsWellNamed, Bool.and_eq_true, decide_eq_true_eq] at h
    intro kn hkn
    rcases List.mem_cons.1 hkn with rfl | hmem
    · exact ⟨h.1.1, h.1.2⟩
    · exact ih h.2 kn hmem

theorem kid_mem (c : String) (ks : List (String × Node)) (k : Node) (h : kid c ks = some k) :
    (c, k) ∈ ks := by
  induction ks with
  | nil => simp [kid] at h
  | cons kn t ih =>
    by_cases hc : kn.1 = c
    · rw [kid_cons_eq _ _ hc] at h
      have : kn = (c, k) := by
        cases kn
        simp only at hc h
        rw [hc, Option.some.inj h]
      rw [this]
      exact List.mem_cons_self _ _
    · rw [kid_cons_ne _ _ hc] at h
      exact List.mem_cons_of_mem _ (ih h)

theorem wellNamed_kid (m : Nat) (ks : List (String × Node)) (c : String) (k : Node)
    (h : (Node.dir m ks).wellNamed = true) (hk : kid c ks = some k) :
    PlainName c ∧ k.wellNamed = true := by
  simp only [Node.wellNamed, Bool.and_eq_true] at h
  exact kidsWellNamed_mem ks h.1 (c, k) (kid_mem c ks k hk)

theorem wellNamed_nodup (m : Nat) (ks : List (String × Node))
    (h : (Node.dir m ks).wellNamed = true) : (ks.map (fun kn => kn.1)).Nodup := by
  simp only [Node.wellNamed, Bool.and_eq_true, decide_eq_true_eq] at h
  exact h.2

theorem wellNamed_lookup (n : Node) (p : List String) (k : Node) (h : n.wellNamed = true)
    (hl : n.lookup p = some k) : k.wellNamed = true := by
  induction p generalizing n with
  | nil => rw [lookup_nil] at hl; cases hl; exact h
  | cons c cs ih =>
    cases n with
    | file m d => simp [lookup_file_cons] at hl
    | dir m ks =>
      rw [lookup_dir_cons] at hl
      cases hk : kid c ks with
      | none => simp [hk] at hl
      | some k2 =>
        rw [hk] at hl
        exact ih k2 (wellNamed_kid m ks c k2 h hk).2 hl

theorem kid_height (c : String) (ks : List (String × Node)) (k : Node) (h : kid c ks = some k) :
    k.height ≤ kidsHeight ks := by
  induction ks with
  | nil => simp [kid] at h
  | cons kn t ih =>
    rw [kidsHeight]
    by_cases hc : kn.1 = c
    · rw [kid_cons_eq _ _ hc] at h
      rw [Option.some.inj h]
      exact Nat.le_max_left _ _
    · rw [kid_cons_ne _ _ hc] at h
      exact Nat.le_trans (ih h) (Nat.le_max_right _ _)

theorem lookup_height (n : Node) (p : List String) (k : Node) (hl : n.lookup p = some k) :
    k.height ≤ n.height := by
  induction p generalizing n with
  | nil => rw [lookup_nil] at hl; cases hl; exact Nat.le_refl _
  | cons c cs ih =>
    cases n with
    | file m d => simp [lookup_file_cons] at hl
    | dir m ks =>
      rw [lookup_dir_cons] at hl
      cases hk : kid c ks with
      | none => simp [hk] at hl
      | some k2 =>
        rw [hk] at hl
        have h1 := ih k2 hl
        have h2 := kid_height c ks k2 hk
        rw [Node.height]
        omega

theorem mem_sortedNames (ks : List (String × Node)) (c : String) :
    c ∈ sortedNames ks ↔ c ∈ ks.map (fun kn => kn.1) :=
  (List.perm_insertionSort _ _).mem_iff

theorem sortedNames_nodup (ks : List (String × Node)) (h : (ks.map (fun kn => kn.1)).Nodup) :
    (sortedNames ks).Nodup :=
  (List.perm_insertionSort _ _).nodup_iff.2 h

theorem kid_of_mem_names (ks : List (String × Node)) (c : String)
    (h : c ∈ ks.map (fun kn => kn.1)) : ∃ k, kid c ks = some k := by
  induction ks with
  | nil => simp at h
  | cons kn t ih =>
    by_cases hc : kn.1 = c
    · exact ⟨kn.2, kid_cons_eq _ _ hc⟩
    · rw [kid_cons_ne _ _ hc]
      apply ih
      simp only [List.map_cons, List.mem_cons] at h
      rcases h with h | h
      · exact absurd h.symm hc
      · exact h

theorem mem_names_of_kid (ks : List (String × Node)) (c : String) (k : Node)
    (h : kid c ks = some k) : c ∈ ks.map (fun kn => kn.1) :=
  List.mem_map.2 ⟨(c, k), kid_mem c ks k h, rfl⟩

theorem Stat_of_resolve (fs : FS) (path : String) (P : List String)
    (h : resolve path = some P) : Stat fs path = fs.root.lookup P := by
  simp [Stat, h]

/-- `Process` writes what `walk` reads off the tree, whenever the bound on
the depth exceeds the height of the node. -/
theorem ProcessFuel_eq_walk (fs : FS) (pfx : String)
    (fuel : Nat) (path : String) (P : List String) (node : Node) (hwfn : node.wellNamed = true)
    (hrel : isRooted path = false) (hres : resolve (Join pfx path) = some P)
    (hnode : fs.root.lookup P = some node) (hfuel : node.height < fuel) :
    ProcessFuel fuel fs pfx path = .ok (walk fuel path node) := by
  induction fuel generalizing path P node with
  | zero => omega
  | succ fuel ih =>
    have hstat : Stat fs (Join pfx path) = some node := by
      rw [Stat_of_resolve fs _ P hres, hnode]
    rw [ProcessFuel]
    simp only [hstat]
    cases node with
    | file m d =>
      simp only [Node.isDir, Bool.false_eq_true, if_false, ProcessFile, hstat, walk]
      split <;> rfl
    | dir m ks =>
      simp only [Node.isDir, if_true, processDirWith, hstat, ReadDir, walk, Node.info]
      have hkids : ∀ names : List String, (∀ c ∈ names, c ∈ ks.map (fun kn => kn.1)) →
          processEntries (fun p => ProcessFuel fuel fs pfx p) path names =
            .ok (walkNames (walk fuel) path ks names) := by
        intro names
        induction names with
        | nil => intro _; rfl
        | cons c rest ihn =>
          intro hmem
          obtain ⟨k, hk⟩ := kid_of_mem_names ks c (hmem c (List.mem_cons_self _ _))
          obtain ⟨hpl, hwfk⟩ := wellNamed_kid m ks c k hwfn hk
          have hlk : fs.root.lookup (P ++ [c]) = some k := by
            rw [lookup_append, hnode]
            simp [lookup_dir_cons, hk, lookup_nil]
          have hh : k.height < fuel := by
            have := kid_height c ks k hk
            rw [Node.height] at hfuel
            omega
          have hrec := ih (Join path c) (P ++ [c]) k hwfk (isRooted_Join_plain path c hrel hpl)
            (resolve_Join_Join pfx path c P hrel hpl hres) hlk hh
          rw [processEntries]
          simp only [hrec, ihn (fun x hx => hmem x (List.mem_cons_of_mem _ hx)), walkNames, hk]
      rw [hkids (sortedNames ks) (fun c hc => (mem_sortedNames ks c).1 hc)]

/-- `Process` returns the walk of the node it is started on. -/
theorem Process_eq_walk (fs : FS) (pfx path : String)
    (P : List String) (node : Node) (hwfn : node.wellNamed = true) (hrel : isRooted path = false)
    (hres : resolve (Join pfx path) = some P) (hnode : fs.root.lookup P = some node) :
    Process fs pfx path = .ok (walk (fs.root.height + 1) path node) := by
  unfold Process
  have := lookup_height fs.root P node hnode
  exact ProcessFuel_eq_walk fs pfx _ path P node hwfn hrel hres hnode (by omega)

/-! ## C3: `Remove` preserves foreign content -/

theorem foldl_rmAt_info (ps : List (List String)) (n : Node) (q : List String)
    (hps : ∀ p ∈ ps, p ≠ q) (hq : (n.lookup q).isSome) (d : List String) (hd : d <+: q) :
    ((ps.foldl rmAt n).lookup d).map Node.info = (n.lookup d).map Node.info := by
  induction ps generalizing n with
  | nil => rfl
  | cons p ps ih =>
    have hne : p ≠ q := hps p (List.mem_cons_self _ _)
    have hq2 : ((rmAt n p).lookup q).isSome := by
      have := congrArg Option.isSome (rmAt_info n p q hq hne q (List.prefix_refl q))
      simpa [hq] using this
    rw [List.foldl_cons, ih (rmAt n p) (fun x hx => hps x (List.mem_cons_of_mem _ hx)) hq2,
      rmAt_info n p q hq hne d hd]

theorem manifest_of_stat (fs : FS) (source : String) (m : Nat) (data : List Block)
    (h : Stat fs source = some (.file m data)) : manifest fs source = (decode data).1 := by
  simp [manifest, h]

/-- C3. Every path that exists before `Remove` and is not the destination path
of a member of the archive keeps its kind, mode and content, and so does every
directory above it: `Remove` deletes only destination paths, and a directory
only when it is empty. -/
theorem Remove_preserves_foreign (fs : FS) (pfx source : String) (q : List String)
    (hq : (fs.root.lookup q).isSome)
    (hforeign : ∀ e ∈ manifest fs source, resolve (Join pfx e.name) ≠ some q)
    (d : List String) (hd : d <+: q) :
    (Remove fs pfx source).2.infoAt d = fs.infoAt d := by
  have hdsome : (fs.root.lookup d).isSome := by
    obtain ⟨t, rfl⟩ := hd
    exact lookup_prefix_isSome _ _ _ hq
  unfold Remove
  rcases openArchive_spec fs pfx source with ⟨e, he⟩ | ⟨e, fs1, he, hm⟩ | ⟨fs1, m, data, he, hm, hs, _⟩
  · rw [he]
  · rw [he]
    exact MkdirAll_info fs fs1 pfx _ hm d hdsome
  · rw [he]
    simp only
    have h1 := MkdirAll_info fs fs1 pfx _ hm d hdsome
    split
    · exact h1
    · rw [removeLoop_eq]
      show ((List.foldl rmAt fs1.root _).lookup d).map Node.info = _
      have hq1 : (fs1.root.lookup q).isSome := by
        have := congrArg Option.isSome (MkdirAll_info fs fs1 pfx _ hm q hq)
        simpa [FS.infoAt, hq] using this
      rw [foldl_rmAt_info _ fs1.root q _ hq1 d hd]
      · exact h1
      · intro p hp
        simp only [List.mem_filterMap, List.mem_reverse, List.mem_map] at hp
        obtain ⟨path, ⟨e, hemem, rfl⟩, hres⟩ := hp
        rw [← manifest_of_stat fs source m data hs] at hemem
        intro hpq
        exact hforeign e hemem (by rw [hres, hpq])

/-- C3, at the scenario: after `Remove` the unrelated file `D/a/x` and the
directory `D/a` above it are as before. -/
theorem Remove_preserves_foreign_witness :
    (installed.root.lookup ["D", "a", "x"]).isSome ∧
    (∀ e ∈ manifest installed "pkg.tgz", resolve (Join "D" e.name) ≠ some ["D", "a", "x"]) ∧
    (Remove installed "D" "pkg.tgz").2.infoAt ["D", "a"] = installed.infoAt ["D", "a"] :=
  ⟨by decide, by decide,
    Remove_preserves_foreign installed "D" "pkg.tgz" ["D", "a", "x"] (by decide) (by decide)
      ["D", "a"] ⟨["x"], rfl⟩⟩

/-! ## C5: `Archive` does not overwrite -/

/-- C5. When the target already exists, `Archive` returns an error and the
file system, the target included, is what it was. -/
theorem Archive_keeps_existing_target (fs : FS) (pfx path target : String)
    (h : Exists fs target = true) :
    (Archive fs pfx path target).1 ≠ none ∧ (Archive fs pfx path target).2 = fs := by
  unfold Archive
  by_cases hsrc : Exists fs (Join pfx path) = true
  · simp [hsrc, h]
  · simp [hsrc]

/-- C5, at the scenario after `pkg.tgz` was written. -/
theorem Archive_keeps_existing_target_witness :
    Exists installed "pkg.tgz" = true ∧
    (Archive installed "D" "a" "pkg.tgz").1 ≠ none ∧
    (Archive installed "D" "a" "pkg.tgz").2 = installed :=
  ⟨by decide, Archive_keeps_existing_target installed "D" "a" "pkg.tgz" (by decide)⟩

/-! ## C7: the manifest of the scenario -/

/-- C7, as stated, fails: the manifest `Archive(R, ".", "pkg.tgz")` writes
is not the three members `a/`, `a/f`, `b/`. -/
theorem Archive_scenario_not_three :
    (manifest (Archive scenario "R" "." "pkg.tgz").2 "pkg.tgz").map Entry.name
      ≠ ["a/", "a/f", "b/"] := by
  decide

/-- C7, amended. `Archive(R, ".", "pkg.tgz")` succeeds and writes four members:
the walked directory itself, named `./`, then `a/`, `a/f` and `b/`. -/
theorem Archive_scenario_manifest :
    (Archive scenario "R" "." "pkg.tgz").1 = none ∧
    (manifest (Archive scenario "R" "." "pkg.tgz").2 "pkg.tgz").map Entry.name
      = ["./", "a/", "a/f", "b/"] := by
  decide

/-! ## C9: what `Remove` creates -/

/-- C9, as stated, fails: with the destination root `E` missing, `Remove`
leaves a directory `E` behind. -/
theorem Remove_creates_root :
    Exists installed "E" = false ∧ Exists (Remove installed "E" "pkg.tgz").2 "E" = true := by
  decide

/-- C9, amended. A path that exists after `Remove` existed before, or it is
the destination root or a directory above it, which `open` creates with
`os.MkdirAll`. -/
theorem Remove_creates_only_root (fs : FS) (pfx source : String) (q : List String)
    (h : ((Remove fs pfx source).2.root.lookup q).isSome) :
    (fs.root.lookup q).isSome ∨ ∃ p, resolve pfx = some p ∧ q <+: p := by
  unfold Remove at h
  rcases openArchive_spec fs pfx source with ⟨e, he⟩ | ⟨e, fs1, he, hm⟩ | ⟨fs1, m, data, he, hm, _, _⟩
  · rw [he] at h; left; exact h
  · rw [he] at h
    exact MkdirAll_new fs fs1 pfx _ hm q h
  · rw [he] at h
    simp only at h
    split at h
    · exact MkdirAll_new fs fs1 pfx _ hm q h
    · rw [removeLoop_eq] at h
      exact MkdirAll_new fs fs1 pfx _ hm q (foldl_rmAt_isSome _ _ q h)

/-- C9, amended, at the scenario: `E` exists after `Remove` and is the
destination root. -/
theorem Remove_creates_only_root_witness :
    ((Remove installed "E" "pkg.tgz").2.root.lookup ["E"]).isSome ∧
    ((installed.root.lookup ["E"]).isSome ∨ ∃ p, resolve "E" = some p ∧ ["E"] <+: p) :=
  ⟨by decide, Remove_creates_only_root installed "E" "pkg.tgz" ["E"] (by decide)⟩

/-! ## C1 and C6: how `Unpack` fails -/

theorem Exists_of_MkdirAll (fs fs1 : FS) (pfx path : String) (perm : Nat)
    (hm : MkdirAll fs pfx perm = .ok fs1) (h : Exists fs path = true) :
    Exists fs1 path = true := by
  unfold Exists Stat at h ⊢
  cases hr : resolve path with
  | none => simp [hr] at h
  | some p =>
    simp only [hr] at h ⊢
    cases hl : fs.root.lookup p with
    | none => simp [hl] at h
    | some k =>
      have hi := MkdirAll_info fs fs1 pfx perm hm p (by simp [hl])
      simp only [FS.infoAt, hl, Option.map_some'] at hi
      cases hl1 : fs1.root.lookup p with
      | none => simp [hl1] at hi
      | some k1 => rfl

theorem validate_some (fs : FS) (pfx : String) (es : List Entry) (bad : Bool) (e : Entry)
    (he : e ∈ es) (hfile : e.isDir = false) (hex : Exists fs (Join pfx e.name) = true) :
    validate fs pfx es bad ≠ none := by
  induction es with
  | nil => simp at he
  | cons x xs ih =>
    unfold validate
    simp only
    split
    · simp
    · rename_i hx
      rcases List.mem_cons.1 he with rfl | hmem
      · simp [hfile, hex] at hx
      · exact ih hmem

theorem validate_none_bad (fs : FS) (pfx : String) (es : List Entry) (bad : Bool)
    (h : validate fs pfx es bad = none) : bad = false := by
  induction es with
  | nil =>
    unfold validate at h
    cases bad <;> simp at h ⊢
  | cons x xs ih =>
    unfold validate at h
    simp only at h
    split at h
    · simp at h
    · exact ih h

theorem Mkdir_error (fs : FS) (path : String) (perm : Nat) (err : Err)
    (h : (Mkdir fs path perm).1 = some err) : err = .mkdir := by
  unfold Mkdir at h
  repeat' split at h
  all_goals first | (simp at h; exact h.symm) | simp at h

theorem CreateWrite_error (fs : FS) (path : String) (data : List Block) (err : Err)
    (h : (CreateWrite fs path data).1 = some err) : err = .create := by
  unfold CreateWrite at h
  repeat' split at h
  all_goals first | (simp at h; exact h.symm) | simp at h

/-- The apply pass over a stream that ends well fails only in `os.Mkdir` or
`os.Create`. -/
theorem apply_error (pfx : String) (es : List Entry) (fs : FS) (err : Err)
    (h : (apply pfx fs es false).1 = some err) : err = .mkdir ∨ err = .create := by
  induction es generalizing fs with
  | nil => simp [apply] at h
  | cons x xs ih =>
    unfold apply at h
    simp only at h
    split at h
    · split at h
      · rename_i e fs1 hmk
        left
        have : (Mkdir fs (Join pfx x.name) x.mode).1 = some e := by rw [hmk]
        rw [Mkdir_error _ _ _ _ this] at h
        simpa using h.symm
      · exact ih _ h
    · split at h
      · rename_i e fs1 hcr
        right
        have : (CreateWrite fs (Join pfx x.name) x.data).1 = some e := by rw [hcr]
        rw [CreateWrite_error _ _ _ _ this] at h
        simpa using h.symm
      · exact ih _ h

/-- C1, as stated, fails: the destination of the file member `../x` exists,
`Unpack` refuses, and yet the destination root `D`, missing before the call,
exists after it. -/
theorem Unpack_refusal_creates_root :
    (∃ e ∈ manifest escaping "pkg.tgz",
      e.isDir = false ∧ Exists escaping (Join "D" e.name) = true) ∧
    (Unpack escaping "D" "pkg.tgz").1 = some .wouldOverwrite ∧
    Exists escaping "D" = false ∧
    Exists (Unpack escaping "D" "pkg.tgz").2 "D" = true := by
  decide

/-- C1, amended. When the destination path of a file member of the archive
exists, `Unpack` returns an error; the file system after the call is the one
before it, or the one `os.MkdirAll` makes of it by creating the destination
root; it is the one before it whenever the destination root is already a
directory. -/
theorem Unpack_refuses_overwrite (fs : FS) (pfx source : String) (e : Entry)
    (he : e ∈ manifest fs source) (hfile : e.isDir = false)
    (hex : Exists fs (Join pfx e.name) = true) :
    (Unpack fs pfx source).1 ≠ none ∧
    ((Unpack fs pfx source).2 = fs ∨ MkdirAll fs pfx 0o775 = .ok (Unpack fs pfx source).2) ∧
    ((∃ p m ks, resolve pfx = some p ∧ fs.root.lookup p = some (.dir m ks)) →
      (Unpack fs pfx source).2 = fs) := by
  have hroot : ∀ fs1, MkdirAll fs pfx 0o775 = .ok fs1 →
      (∃ p m ks, resolve pfx = some p ∧ fs.root.lookup p = some (.dir m ks)) → fs1 = fs := by
    rintro fs1 hm ⟨p, m, ks, hr, hl⟩
    rw [MkdirAll_idem fs pfx 0o775 p m ks hr hl] at hm
    exact (Except.ok.inj hm).symm
  unfold Unpack
  rcases openArchive_spec fs pfx source with ⟨e1, h1⟩ | ⟨e1, fs1, h1, hm⟩ |
    ⟨fs1, m, data, h1, hm, hs, _⟩
  · rw [h1]
    exact ⟨by simp, Or.inl rfl, fun _ => rfl⟩
  · rw [h1]
    exact ⟨by simp, Or.inr hm, hroot fs1 hm⟩
  · rw [h1]
    simp only
    rw [manifest_of_stat fs source m data hs] at he
    have hex1 := Exists_of_MkdirAll fs fs1 pfx _ _ hm hex
    have hv := validate_some fs1 pfx (decode data).1 (decode data).2 e he hfile hex1
    cases hval : validate fs1 pfx (decode data).1 (decode data).2 with
    | none => exact absurd hval hv
    | some e2 => exact ⟨by simp, Or.inr hm, hroot fs1 hm⟩

/-- C1, amended, at the scenario: `D/a/f` exists, `Unpack` refuses and the
file system is unchanged. -/
theorem Unpack_refuses_overwrite_witness :
    (⟨"a/f", false, 0o644, [.raw 104, .raw 105]⟩ : Entry) ∈ manifest installed "pkg.tgz" ∧
    Exists installed (Join "D" "a/f") = true ∧
    (Unpack installed "D" "pkg.tgz").1 ≠ none ∧
    (Unpack installed "D" "pkg.tgz").2 = installed :=
  ⟨by decide, by decide,
    (Unpack_refuses_overwrite installed "D" "pkg.tgz" ⟨"a/f", false, 0o644, [.raw 104, .raw 105]⟩
      (by decide) rfl (by decide)).1,
    (Unpack_refuses_overwrite installed "D" "pkg.tgz" ⟨"a/f", false, 0o644, [.raw 104, .raw 105]⟩
      (by decide) rfl (by decide)).2.2 ⟨["D"], _, _, rfl, rfl⟩⟩

/-- C6, as stated, fails: `os.Mkdir` fails on the second member, the
directory `a/`, and the file `D/f` of the first member stays on disk. -/
theorem Unpack_failure_leaves_file :
    (Unpack clash "D" "pkg.tgz").1 = some .mkdir ∧
    Exists clash "D/f" = false ∧
    Exists (Unpack clash "D" "pkg.tgz").2 "D/f" = true := by
  decide

/-- C6, amended. When `Unpack` returns an error that does not come from
`os.Mkdir` or `os.Create` in the apply pass, the file system after the call is
the one before it, or the one `os.MkdirAll` makes of it by creating the
destination root. -/
theorem Unpack_fails_before_apply (fs : FS) (pfx source : String) (err : Err)
    (h : (Unpack fs pfx source).1 = some err) (hmk : err ≠ .mkdir) (hcr : err ≠ .create) :
    (Unpack fs pfx source).2 = fs ∨ MkdirAll fs pfx 0o775 = .ok (Unpack fs pfx source).2 := by
  unfold Unpack at h ⊢
  rcases openArchive_spec fs pfx source with ⟨e1, h1⟩ | ⟨e1, fs1, h1, hm⟩ |
    ⟨fs1, m, data, h1, hm, hs, _⟩
  · rw [h1]; exact Or.inl rfl
  · rw [h1]; exact Or.inr hm
  · rw [h1] at h ⊢
    simp only at h ⊢
    cases hval : validate fs1 pfx (decode data).1 (decode data).2 with
    | some e2 => exact Or.inr hm
    | none =>
      rw [hval] at h
      simp only at h
      rw [openArchive_again fs fs1 pfx source _ h1] at h
      simp only at h
      rw [validate_none_bad _ _ _ _ hval] at h
      rcases apply_error pfx _ fs1 err h with h2 | h2
      · exact absurd h2 hmk
      · exact absurd h2 hcr

/-- C6, amended, at the scenario: the validate pass refuses, nothing is
written. -/
theorem Unpack_fails_before_apply_witness :
    (Unpack installed "D" "pkg.tgz").1 = some .wouldOverwrite ∧
    ((Unpack installed "D" "pkg.tgz").2 = installed ∨
      MkdirAll installed "D" 0o775 = .ok (Unpack installed "D" "pkg.tgz").2) :=
  ⟨by decide,
    Unpack_fails_before_apply installed "D" "pkg.tgz" .wouldOverwrite (by decide)
      (by decide) (by decide)⟩

/-! ## C8: `Remove` prunes what was installed -/

theorem kid_some_mem (c : String) (ks : List (String × Node)) (k : Node)
    (h : kid c ks = some k) : ∃ kn ∈ ks, kn.1 = c := by
  induction ks with
  | nil => simp [kid] at h
  | cons kn t ih =>
    by_cases hc : kn.1 = c
    · exact ⟨kn, List.mem_cons_self _ _, hc⟩
    · rw [kid_cons_ne _ _ hc] at h
      obtain ⟨kn2, hmem, h2⟩ := ih h
      exact ⟨kn2, List.mem_cons_of_mem _ hmem, h2⟩

/-- A path that exists is listed in its parent directory. -/
theorem lookup_child_kids (n : Node) (p : List String) (c : String)
    (h : (n.lookup (p ++ [c])).isSome) :
    ∃ k, n.lookup p = some k ∧ ∃ kn ∈ k.kids, kn.1 = c := by
  cases hx : n.lookup (p ++ [c]) with
  | none => simp [hx] at h
  | some x =>
    obtain ⟨m, ks, hp, hk⟩ := lookup_parent n p c x hx
    exact ⟨_, hp, kid_some_mem c ks x hk⟩

theorem below_child (p : List String) (c : String) : Below p (p ++ [c]) :=
  ⟨List.prefix_append p [c], fun h => by simpa using congrArg List.length h⟩

/-- The entry at the head of the listing of a directory exists. -/
theorem lookup_head_kid (n : Node) (p : List String) (m : Nat) (kn : String × Node)
    (t : List (String × Node)) (h : n.lookup p = some (.dir m (kn :: t))) :
    (n.lookup (p ++ [kn.1])).isSome := by
  rw [lookup_append, h]
  simp [lookup_dir_cons, kid_head, lookup_nil]

/-- The deletion loop over paths of which none comes before a path below
it, in a tree where every entry of a listed path is listed: every listed path
but the root is gone at the end. -/
theorem foldl_rmAt_prune (todo : List (List String)) (n : Node)
    (hpw : todo.Pairwise (fun a b => ¬ Below a b))
    (hinv : ∀ p ∈ todo, ∀ c, (n.lookup (p ++ [c])).isSome → p ++ [c] ∈ todo) :
    ∀ p ∈ todo, p ≠ [] → (todo.foldl rmAt n).lookup p = none := by
  induction todo generalizing n with
  | nil => intro p hp; simp at hp
  | cons p rest ih =>
    rw [List.pairwise_cons] at hpw
    have step_gone : p ≠ [] → (rmAt n p).lookup p = none := by
      intro hne
      rcases rmAt_self n p hne with h | ⟨_, m, kn, t, hl⟩
      · exact h
      · exfalso
        have hc := hinv p (List.mem_cons_self _ _) kn.1 (lookup_head_kid n p m kn t hl)
        rcases List.mem_cons.1 hc with heq | hmem
        · exact (below_child p kn.1).2 heq.symm
        · exact hpw.1 _ hmem (below_child p kn.1)
    have hinv2 : ∀ p2 ∈ rest, ∀ c, ((rmAt n p).lookup (p2 ++ [c])).isSome →
        p2 ++ [c] ∈ rest := by
      intro p2 hp2 c hc
      have h1 := hinv p2 (List.mem_cons_of_mem _ hp2) c (rmAt_isSome n p _ hc)
      rcases List.mem_cons.1 h1 with heq | hmem
      · exfalso
        have hne : p ≠ [] := by rw [← heq]; simp
        rw [heq, step_gone hne] at hc
        simp at hc
      · exact hmem
    intro q hq hqne
    rw [List.foldl_cons]
    by_cases hqr : q ∈ rest
    · exact ih (rmAt n p) hpw.2 hinv2 q hqr hqne
    · rcases List.mem_cons.1 hq with heq | hmem
      · subst heq
        cases hfin : (List.foldl rmAt (rmAt n q) rest).lookup q with
        | none => rfl
        | some k =>
          have := foldl_rmAt_isSome rest (rmAt n q) q (by simp [hfin])
          rw [step_gone hqne] at this
          simp at this
      · exact absurd hmem hqr

theorem removeLoop_dests (fs : FS) (pfx : String) (es : List Entry) :
    removeLoop fs (es.map (fun hdr => Join pfx hdr.name)).reverse =
      { fs with root := (destPaths pfx es).reverse.foldl rmAt fs.root } := by
  rw [removeLoop_eq, List.filterMap_reverse, List.filterMap_map]
  rfl

/-- A `Remove` that returns no error went through `open`, found the whole
container and ran the deletion loop. -/
theorem Remove_ok (fs : FS) (pfx source : String) (h : (Remove fs pfx source).1 = none) :
    ∃ fs1 m data, MkdirAll fs pfx 0o775 = .ok fs1 ∧ Stat fs source = some (.file m data) ∧
      Stat fs1 source = some (.file m data) ∧ (decode data).2 = false ∧
      (Remove fs pfx source).2 =
        { fs1 with root := (destPaths pfx (manifest fs source)).reverse.foldl rmAt fs1.root } := by
  unfold Remove at h ⊢
  rcases openArchive_spec fs pfx source with ⟨e1, h1⟩ | ⟨e1, fs1, h1, hm⟩ |
    ⟨fs1, m, data, h1, hm, hs, hs1⟩
  · rw [h1] at h; simp at h
  · rw [h1] at h; simp at h
  · rw [h1] at h ⊢
    simp only at h ⊢
    cases hbad : (decode data).2 with
    | true => simp [hbad] at h
    | false =>
      refine ⟨fs1, m, data, hm, hs, hs1, hbad, ?_⟩
      simp only [hbad, Bool.false_eq_true, if_false]
      rw [removeLoop_dests, manifest_of_stat fs source m data hs]

/-- C8, as stated, fails: the archive has no directory member, so the
condition on the file system holds, the manifest is in pre-order, `Remove`
succeeds, and the destination `D/x` of its only member still exists: it is a
directory on disk and it is not empty. -/
theorem Remove_keeps_nonempty_destination :
    (∀ e ∈ manifest kindClash "pkg.tgz", e.isDir = false) ∧
    PreOrder (destPaths "D" (manifest kindClash "pkg.tgz")) ∧
    ["D", "x"] ∈ destPaths "D" (manifest kindClash "pkg.tgz") ∧
    (Remove kindClash "D" "pkg.tgz").1 = none ∧
    ((Remove kindClash "D" "pkg.tgz").2.root.lookup ["D", "x"]).isSome := by
  decide

/-- C8, amended. When the destination root is a directory, the manifest is in
pre-order, every entry of a directory that is the destination of a member is
itself the destination of a member, and `Remove` returns no error, then after
`Remove` no destination path of a member exists, the root of the file system
apart. -/
theorem Remove_prunes (fs : FS) (pfx source : String)
    (hok : (Remove fs pfx source).1 = none)
    (hroot : ∃ p m ks, resolve pfx = some p ∧ fs.root.lookup p = some (.dir m ks))
    (hpre : PreOrder (destPaths pfx (manifest fs source)))
    (hclosed : ∀ p ∈ destPaths pfx (manifest fs source), ∀ kn ∈ fs.kidsAt p,
      p ++ [kn.1] ∈ destPaths pfx (manifest fs source)) :
    ∀ p ∈ destPaths pfx (manifest fs source), p ≠ [] →
      (Remove fs pfx source).2.root.lookup p = none := by
  obtain ⟨fs1, m, data, hm, hs, _, _, hfs⟩ := Remove_ok fs pfx source hok
  obtain ⟨p0, m0, ks0, hr, hl⟩ := hroot
  rw [MkdirAll_idem fs pfx 0o775 p0 m0 ks0 hr hl] at hm
  cases Except.ok.inj hm
  rw [hfs]
  intro p hp hne
  apply foldl_rmAt_prune _ fs.root
  · rw [List.pairwise_reverse]
    exact hpre
  · intro p2 hp2 c hc
    rw [List.mem_reverse] at hp2 ⊢
    obtain ⟨k, hk, kn, hkn, hc2⟩ := lookup_child_kids fs.root p2 c hc
    have := hclosed p2 hp2 kn (by simpa [FS.kidsAt, hk] using hkn)
    rwa [hc2] at this
  · exact List.mem_reverse.2 hp
  · exact hne

/-- C8, amended, at the scenario: after `Remove` none of `D/a`, `D/a/f`,
`D/b` exists. -/
theorem Remove_prunes_witness :
    (Remove unpacked "D" "pkg.tgz").1 = none ∧
    PreOrder (destPaths "D" (manifest unpacked "pkg.tgz")) ∧
    (∀ p ∈ destPaths "D" (manifest unpacked "pkg.tgz"), p ≠ [] →
      (Remove unpacked "D" "pkg.tgz").2.root.lookup p = none) :=
  ⟨by decide, by decide,
    Remove_prunes unpacked "D" "pkg.tgz" (by decide) ⟨["D"], _, _, rfl, rfl⟩ (by decide)
      (by decide)⟩

/-! ## C4: `Remove` twice -/

theorem rmAt_of_settled (n : Node) (p : List String) (h : Settled n p) : rmAt n p = n := by
  rcases h with rfl | h | ⟨m, kn, t, h⟩
  · unfold rmAt
    split <;> simp [alter_nil]
  · simp [rmAt, h]
  · simp [rmAt, h]

theorem foldl_rmAt_of_settled (ps : List (List String)) (n : Node)
    (h : ∀ p ∈ ps, Settled n p) : ps.foldl rmAt n = n := by
  induction ps with
  | nil => rfl
  | cons p rest ih =>
    rw [List.foldl_cons, rmAt_of_settled n p (h p (List.mem_cons_self _ _))]
    exact ih (fun q hq => h q (List.mem_cons_of_mem _ hq))

/-- A directory above an existing path has entries. -/
theorem lookup_nonempty_of_child (n : Node) (p : List String) (c : String)
    (h : (n.lookup (p ++ [c])).isSome) : ∃ m kn t, n.lookup p = some (.dir m (kn :: t)) := by
  cases hx : n.lookup (p ++ [c]) with
  | none => simp [hx] at h
  | some x =>
    obtain ⟨m, ks, hp, hk⟩ := lookup_parent n p c x hx
    cases ks with
    | nil => simp [kid] at hk
    | cons kn t => exact ⟨m, kn, t, hp⟩

/-- A settled path stays settled through a round at a path that is not below
it. -/
theorem settled_rmAt (n : Node) (p r : List String) (h : Settled n p) (hr : ¬ Below p r) :
    Settled (rmAt n r) p := by
  rcases h with h | h | ⟨m, kn, t, h⟩
  · exact Or.inl h
  · right; left
    cases hx : (rmAt n r).lookup p with
    | none => rfl
    | some k =>
      have := rmAt_isSome n r p (by simp [hx])
      rw [h] at this
      simp at this
  · right; right
    have hq := lookup_head_kid n p m kn t h
    have hne : r ≠ p ++ [kn.1] := fun e => hr (e ▸ below_child p kn.1)
    have hi := rmAt_info n r (p ++ [kn.1]) hq hne (p ++ [kn.1]) (List.prefix_refl _)
    have hq2 : ((rmAt n r).lookup (p ++ [kn.1])).isSome := by
      have := congrArg Option.isSome hi
      simpa [hq] using this
    exact lookup_nonempty_of_child _ p kn.1 hq2

theorem settled_foldl (rest : List (List String)) (n : Node) (p : List String)
    (h : Settled n p) (hr : ∀ r ∈ rest, ¬ Below p r) : Settled (rest.foldl rmAt n) p := by
  induction rest generalizing n with
  | nil => exact h
  | cons r rest ih =>
    rw [List.foldl_cons]
    exact ih _ (settled_rmAt n p r h (hr r (List.mem_cons_self _ _)))
      (fun x hx => hr x (List.mem_cons_of_mem _ hx))

theorem settled_after_rmAt (n : Node) (p : List String) : Settled (rmAt n p) p := by
  by_cases hp : p = []
  · exact Or.inl hp
  · rcases rmAt_self n p hp with h | ⟨heq, m, kn, t, hl⟩
    · exact Or.inr (Or.inl h)
    · rw [heq]; exact Or.inr (Or.inr ⟨m, kn, t, hl⟩)

/-- After the deletion loop over paths of which none comes before a path
below it, every path of the loop is settled. -/
theorem foldl_rmAt_settled (ps : List (List String)) (n : Node)
    (hpw : ps.Pairwise (fun a b => ¬ Below a b)) :
    ∀ p ∈ ps, Settled (ps.foldl rmAt n) p := by
  induction ps generalizing n with
  | nil => intro p hp; simp at hp
  | cons p0 rest ih =>
    rw [List.pairwise_cons] at hpw
    intro p hp
    rw [List.foldl_cons]
    by_cases hpr : p ∈ rest
    · exact ih _ hpw.2 p hpr
    · rcases List.mem_cons.1 hp with heq | hmem
      · subst heq
        exact settled_foldl rest _ p (settled_after_rmAt n p) hpw.1
      · exact absurd hmem hpr

/-- A path that survives a round of the deletion loop has the `Info` it had. -/
theorem rmAt_survivor (n : Node) (p q : List String) (k2 : Node)
    (h : (rmAt n p).lookup q = some k2) : ∃ k, n.lookup q = some k ∧ k.info = k2.info := by
  have hsome : (n.lookup q).isSome := rmAt_isSome n p q (by simp [h])
  by_cases hpq : p = q
  · subst hpq
    by_cases hp : p = []
    · subst hp
      rw [rmAt_of_settled n [] (Or.inl rfl)] at h
      exact ⟨k2, h, rfl⟩
    · rcases rmAt_self n p hp with h1 | ⟨heq, _⟩
      · rw [h1] at h; simp at h
      · rw [heq] at h; exact ⟨k2, h, rfl⟩
  · have hi := rmAt_info n p q hsome hpq q (List.prefix_refl _)
    rw [h] at hi
    cases hl : n.lookup q with
    | none => simp [hl] at hsome
    | some k =>
      rw [hl] at hi
      simp only [Option.map_some', Option.some.injEq] at hi
      exact ⟨k, rfl, hi.symm⟩

theorem foldl_rmAt_survivor (ps : List (List String)) (n : Node) (q : List String) (k2 : Node)
    (h : (ps.foldl rmAt n).lookup q = some k2) :
    ∃ k, n.lookup q = some k ∧ k.info = k2.info := by
  induction ps generalizing n with
  | nil => exact ⟨k2, h, rfl⟩
  | cons p rest ih =>
    obtain ⟨k1, h1, hi1⟩ := ih _ h
    obtain ⟨k, h0, hi0⟩ := rmAt_survivor n p q k1 h1
    exact ⟨k, h0, hi0.trans hi1⟩

/-- A path that the deletion loop removed is a path of the loop. -/
theorem foldl_rmAt_removed (ps : List (List String)) (n : Node) (x : List String)
    (h0 : (n.lookup x).isSome) (h1 : (ps.foldl rmAt n).lookup x = none) : x ∈ ps := by
  by_contra hx
  have hi := foldl_rmAt_info ps n x (fun p hp e => hx (e ▸ hp)) h0 x (List.prefix_refl _)
  rw [h1] at hi
  cases hl : n.lookup x with
  | none => simp [hl] at h0
  | some k => simp [hl] at hi

theorem alterKid_cancel (c : String) (y : Node) (ks : List (String × Node))
    (h : kid c ks = none) :
    alterKid c (fun _ => none) (alterKid c (fun _ => some y) ks) = ks := by
  induction ks with
  | nil => simp [alterKid, dropKid]
  | cons kn t ih =>
    by_cases hc : kn.1 = c
    · rw [kid_cons_eq _ _ hc] at h; simp at h
    · rw [kid_cons_ne _ _ hc] at h
      rw [alterKid, if_neg hc, alterKid, if_neg hc, ih h]

theorem mapKid_cancel (c : String) (f f2 : Node → Node) (ks : List (String × Node))
    (h : ∀ k, kid c ks = some k → f2 (f k) = k) : mapKid c f2 (mapKid c f ks) = ks := by
  induction ks with
  | nil => rfl
  | cons kn t ih =>
    by_cases hc : kn.1 = c
    · rw [mapKid, if_pos hc, mapKid, if_pos hc, h kn.2 (kid_cons_eq _ _ hc)]
    · rw [mapKid, if_neg hc, mapKid, if_neg hc, ih]
      intro k hk
      exact h k (by rw [kid_cons_ne _ _ hc]; exact hk)

/-- Deleting a node just created at a missing path gives the tree back. -/
theorem alter_cancel (n : Node) (x : List String) (y : Node) (h : n.lookup x = none) :
    (n.alter x (fun _ => some y)).alter x (fun _ => none) = n := by
  induction x generalizing n with
  | nil => simp [lookup_nil] at h
  | cons c cs ih =>
    cases n with
    | file m d => rw [alter_file, alter_file]
    | dir m ks =>
      cases cs with
      | nil =>
        rw [alter_dir_single, alter_dir_single, alterKid_cancel]
        rw [lookup_dir_cons] at h
        cases hk : kid c ks with
        | none => rfl
        | some k => simp [hk, lookup_nil] at h
      | cons c2 cs =>
        rw [alter_dir_deep, alter_dir_deep, mapKid_cancel]
        intro k hk
        apply ih
        rw [lookup_dir_cons, hk] at h
        exact h

theorem addChain_append (perm : Nat) (a b : List String) (n : Node) (done : List String) :
    addChain perm n done (a ++ b) = addChain perm (addChain perm n done a) (done ++ a) b := by
  induction a generalizing n done with
  | nil => simp [addChain]
  | cons c a ih =>
    rw [List.cons_append, addChain, addChain, ih]
    simp

/-- The chain changes the `Info` of no path that is not at or below its first
directory. -/
theorem addChain_info (perm : Nat) (cs : List String) (n : Node) (done q : List String)
    (h : ∀ c cs2, cs = c :: cs2 → ¬ (done ++ [c]) <+: q) :
    ((addChain perm n done cs).lookup q).map Node.info = (n.lookup q).map Node.info := by
  induction cs generalizing n done with
  | nil => rfl
  | cons c cs ih =>
    simp only [addChain]
    have h1 : ¬ (done ++ [c]) <+: q := h c cs rfl
    rw [ih, lookup_alter_info _ _ _ _ h1]
    intro c2 cs2 _ hp
    exact h1 ((List.prefix_append _ _).trans hp)

/-- What exists after the chain was created existed before or is a directory
of the chain. -/
theorem addChain_new (perm : Nat) (cs : List String) (n : Node) (done q : List String)
    (h : ((addChain perm n done cs).lookup q).isSome) :
    (n.lookup q).isSome ∨ ∃ a b, cs = a ++ b ∧ a ≠ [] ∧ q = done ++ a := by
  induction cs generalizing n done with
  | nil => left; exact h
  | cons c cs ih =>
    simp only [addChain] at h
    rcases ih _ _ h with h1 | ⟨a, b, hab, _, hq⟩
    · rcases lookup_alter_const n _ q _ h1 with h2 | ⟨t, ht, hy⟩
      · left; exact h2
      · right
        cases t with
        | nil => exact ⟨[c], cs, rfl, by simp, by simpa using ht⟩
        | cons a t => simp [lookup_dir_cons, kid] at hy
    · right
      exact ⟨c :: a, b, by simp [hab], by simp, by simp [hq]⟩

/-- The last directory of the chain is a directory. -/
theorem addChain_isDir (perm : Nat) (cs : List String) (n : Node) (done : List String)
    (m : Nat) (ks : List (String × Node)) (hd : n.lookup done = some (.dir m ks)) :
    ∃ m2 ks2, (addChain perm n done cs).lookup (done ++ cs) = some (.dir m2 ks2) := by
  induction cs generalizing n done m ks with
  | nil => exact ⟨m, ks, by simpa [addChain] using hd⟩
  | cons c cs ih =>
    simp only [addChain]
    have hassoc : done ++ c :: cs = (done ++ [c]) ++ cs := by simp
    rw [hassoc]
    exact ih _ _ _ _ (lookup_alter_self n done c (fun _ => some (.dir perm [])) m ks hd)

/-- With the first directory missing, `os.MkdirAll` creates the whole chain. -/
theorem mkdirAllFrom_missing (perm : Nat) (cs : List String) (c : String) (n : Node)
    (done : List String) (m : Nat) (ks : List (String × Node))
    (hd : n.lookup done = some (.dir m ks)) (hc : n.lookup (done ++ [c]) = none) :
    mkdirAllFrom perm done (c :: cs) n = .ok (addChain perm n done (c :: cs)) := by
  induction cs generalizing n done c m ks with
  | nil => simp [mkdirAllFrom, hc, addChain]
  | cons c2 cs ih =>
    rw [mkdirAllFrom]
    simp only [hc]
    have h1 := lookup_alter_self n done c (fun _ => some (.dir perm [])) m ks hd
    have h2 : (n.alter (done ++ [c]) (fun _ => some (.dir perm []))).lookup
        ((done ++ [c]) ++ [c2]) = none := by
      rw [lookup_append, h1]; rfl
    rw [ih c2 _ (done ++ [c]) perm [] h1 h2]
    rfl

/-- A round of the deletion loop at the last directory of the chain removes
it. -/
theorem rmAt_addChain_last (perm : Nat) (n : Node) (done init : List String) (last : String)
    (m : Nat) (ks : List (String × Node)) (hd : n.lookup done = some (.dir m ks))
    (hmiss : ∀ c cs2, init ++ [last] = c :: cs2 → n.lookup (done ++ [c]) = none) :
    rmAt (addChain perm n done (init ++ [last])) (done ++ (init ++ [last])) =
      addChain perm n done init := by
  obtain ⟨m2, ks2, hpar⟩ := addChain_isDir perm init n done m ks hd
  have habs : (addChain perm n done init).lookup ((done ++ init) ++ [last]) = none := by
    cases hx : (addChain perm n done init).lookup ((done ++ init) ++ [last]) with
    | none => rfl
    | some k =>
      exfalso
      rcases addChain_new perm init n done ((done ++ init) ++ [last]) (by rw [hx]; rfl) with
        h1 | ⟨a, b, hab, _, hq⟩
      · obtain ⟨c, cs2, hcs⟩ : ∃ c cs2, init ++ [last] = c :: cs2 := by
          cases hi : init ++ [last] with
          | nil => simp at hi
          | cons c cs2 => exact ⟨c, cs2, rfl⟩
        have h2 := hmiss c cs2 hcs
        have h3 : (done ++ init) ++ [last] = (done ++ [c]) ++ cs2 := by
          rw [List.append_assoc, hcs]; simp
        rw [h3] at h1
        have := lookup_prefix_isSome n _ _ h1
        rw [h2] at this
        simp at this
      · have hlen : ((done ++ init) ++ [last]).length = (done ++ a).length :=
          congrArg List.length hq
        rw [hab] at hlen
        simp only [List.length_append, List.length_singleton] at hlen
        omega
  rw [addChain_append]
  simp only [addChain]
  have hself := lookup_alter_self (addChain perm n done init) (done ++ init) last
    (fun _ => some (.dir perm [])) m2 ks2 hpar
  have hpath : done ++ (init ++ [last]) = (done ++ init) ++ [last] := by simp
  rw [hpath]
  unfold rmAt
  rw [hself]
  simp only
  exact alter_cancel _ _ _ habs

/-- The deletion loop after `os.MkdirAll` re-created a chain of directories
that the loop had removed: the chain is removed again. -/
theorem foldl_rmAt_addChain (perm : Nat) (n : Node) (done : List String)
    (m0 : Nat) (ks0 : List (String × Node)) (hdone : n.lookup done = some (.dir m0 ks0))
    (ps : List (List String)) (cs : List String)
    (hset : ∀ p ∈ ps, Settled n p) (hpw : ps.Pairwise (fun a b => ¬ Below a b))
    (hmiss : ∀ c cs2, cs = c :: cs2 → n.lookup (done ++ [c]) = none)
    (hchain : ∀ a b, cs = a ++ b → a ≠ [] → done ++ a ∈ ps) :
    ps.foldl rmAt (addChain perm n done cs) = n := by
  induction ps generalizing cs with
  | nil =>
    cases cs with
    | nil => rfl
    | cons c cs2 =>
      have := hchain [c] cs2 rfl (by simp)
      simp at this
  | cons p rest ih =>
    rw [List.pairwise_cons] at hpw
    rw [List.foldl_cons]
    have hset2 : ∀ q ∈ rest, Settled n q := fun q hq => hset q (List.mem_cons_of_mem _ hq)
    -- a directory of the chain that is not the last one cannot be `p`
    have hinner : ∀ a b, cs = a ++ b → a ≠ [] → b ≠ [] → p ≠ done ++ a := by
      intro a b hab ha hb hp
      have hbot := hchain cs [] (by simp) (by rw [hab]; simp [ha])
      have hbelow : Below p (done ++ cs) := by
        rw [hp, hab]
        refine ⟨⟨b, by simp⟩, fun e => ?_⟩
        have := congrArg List.length e
        simp at this
        exact hb this
      rcases List.mem_cons.1 hbot with heq | hmem
      · exact hbelow.2 heq.symm
      · exact hpw.1 _ hmem hbelow
    by_cases hb : cs ≠ [] ∧ p = done ++ cs
    · obtain ⟨hne, hp⟩ := hb
      obtain ⟨init, last, hcs⟩ : ∃ init last, cs = init ++ [last] :=
        ⟨cs.dropLast, cs.getLast hne, (List.dropLast_append_getLast hne).symm⟩
      subst hcs
      rw [hp, rmAt_addChain_last perm n done init last m0 ks0 hdone hmiss]
      apply ih init hset2 hpw.2
      · intro c cs2 hi
        exact hmiss c (cs2 ++ [last]) (by rw [hi]; rfl)
      · intro a b hab ha
        have hmem := hchain a (b ++ [last]) (by rw [hab]; simp) ha
        rcases List.mem_cons.1 hmem with heq | hmem2
        · exfalso
          rw [hp, hab] at heq
          have := congrArg List.length heq
          simp at this
        · exact hmem2
    · have hsettled : Settled (addChain perm n done cs) p := by
        rcases hset p (List.mem_cons_self _ _) with h | h | ⟨m, kn, t, h⟩
        · exact Or.inl h
        · right; left
          cases hx : (addChain perm n done cs).lookup p with
          | none => rfl
          | some k =>
            exfalso
            rcases addChain_new perm cs n done p (by simp [hx]) with h1 | ⟨a, b, hab, ha, hq⟩
            · rw [h] at h1; simp at h1
            · by_cases hbn : b = []
              · subst hbn
                apply hb
                simp only [List.append_nil] at hab
                subst hab
                exact ⟨ha, hq⟩
              · exact hinner a b hab ha hbn hq
        · right; right
          have hq := lookup_head_kid n p m kn t h
          have hi := addChain_info perm cs n done (p ++ [kn.1]) (by
            intro c cs2 hcs hpre
            obtain ⟨t2, ht2⟩ := hpre
            rw [← ht2] at hq
            have := lookup_prefix_isSome n _ _ hq
            rw [hmiss c cs2 hcs] at this
            simp at this)
          have hq2 : ((addChain perm n done cs).lookup (p ++ [kn.1])).isSome := by
            have := congrArg Option.isSome hi
            simpa [hq] using this
          exact lookup_nonempty_of_child _ p kn.1 hq2
      rw [rmAt_of_settled _ p hsettled]
      apply ih cs hset2 hpw.2 hmiss
      intro a b hab ha
      rcases List.mem_cons.1 (hchain a b hab ha) with heq | hmem
      · exfalso
        by_cases hbn : b = []
        · subst hbn
          apply hb
          simp only [List.append_nil] at hab
          subst hab
          exact ⟨ha, heq.symm⟩
        · exact hinner a b hab ha hbn heq.symm
      · exact hmem

/-- `os.MkdirAll` on a tree the deletion loop has settled, then the loop
again: the tree is the settled one. -/
theorem mkdirAllFrom_then_loop (perm : Nat) (ps : List (List String)) (n : Node)
    (hset : ∀ p ∈ ps, Settled n p) (hpw : ps.Pairwise (fun a b => ¬ Below a b))
    (cs done : List String) (m0 : Nat) (ks0 : List (String × Node))
    (hdone : n.lookup done = some (.dir m0 ks0))
    (hin : ∀ a b, cs = a ++ b → a ≠ [] → n.lookup (done ++ a) = none → done ++ a ∈ ps)
    (hnofile : ∀ a b, cs = a ++ b → ∀ m d, n.lookup (done ++ a) ≠ some (.file m d)) :
    ∃ n3, mkdirAllFrom perm done cs n = .ok n3 ∧ ps.foldl rmAt n3 = n := by
  induction cs generalizing done m0 ks0 with
  | nil => exact ⟨n, rfl, foldl_rmAt_of_settled ps n hset⟩
  | cons c cs ih =>
    cases hx : n.lookup (done ++ [c]) with
    | none =>
      refine ⟨_, mkdirAllFrom_missing perm cs c n done m0 ks0 hdone hx, ?_⟩
      apply foldl_rmAt_addChain perm n done m0 ks0 hdone ps (c :: cs) hset hpw
      · intro c2 cs2 h2
        cases h2
        exact hx
      · intro a b hab ha
        apply hin a b hab ha
        cases a with
        | nil => exact absurd rfl ha
        | cons a0 a =>
          simp only [List.cons_append, List.cons.injEq] at hab
          obtain ⟨rfl, _⟩ := hab
          have : done ++ c :: a = (done ++ [c]) ++ a := by simp
          rw [this, lookup_append, hx]
          rfl
    | some k =>
      cases k with
      | file m d => exact absurd hx (hnofile [c] cs rfl m d)
      | dir m ks =>
        rw [mkdirAllFrom]
        simp only [hx]
        apply ih (done ++ [c]) m ks hx
        · intro a b hab ha hl
          have := hin (c :: a) b (by rw [hab]; rfl) (by simp) (by simpa using hl)
          simpa using this
        · intro a b hab m2 d2 hl
          exact hnofile (c :: a) b (by rw [hab]; rfl) m2 d2 (by simpa using hl)

theorem rmAt_root_info (n : Node) (p : List String) : (rmAt n p).info = n.info := by
  unfold rmAt
  split <;> simp [info_alter]

theorem foldl_rmAt_root_info (ps : List (List String)) (n : Node) :
    (ps.foldl rmAt n).info = n.info := by
  induction ps generalizing n with
  | nil => rfl
  | cons p rest ih => rw [List.foldl_cons, ih, rmAt_root_info]

theorem stat_resolve (fs : FS) (path : String) (k : Node) (h : Stat fs path = some k) :
    ∃ p, resolve path = some p ∧ fs.root.lookup p = some k := by
  unfold Stat at h
  cases hr : resolve path with
  | none => simp [hr] at h
  | some p => exact ⟨p, rfl, by simpa [hr] using h⟩

/-- C4, as stated, fails: the archive lists the file `a/f` before the
directory `a/`; both calls of `Remove` succeed, the first leaves the emptied
directory `D/a` behind and the second deletes it. -/
theorem Remove_second_call_deletes :
    (Remove unordered "D" "pkg.tgz").1 = none ∧
    (Remove (Remove unordered "D" "pkg.tgz").2 "D" "pkg.tgz").1 = none ∧
    Exists (Remove unordered "D" "pkg.tgz").2 "D/a" = true ∧
    Exists (Remove (Remove unordered "D" "pkg.tgz").2 "D" "pkg.tgz").2 "D/a" = false := by
  decide

/-- C4, amended. When the manifest is in pre-order, the archive is not itself
the destination of one of its members and `Remove` returns no error, a second
`Remove` with the same arguments returns no error either and leaves the file
system as the first call left it. -/
theorem Remove_twice (fs : FS) (pfx source : String)
    (hok : (Remove fs pfx source).1 = none)
    (hpre : PreOrder (destPaths pfx (manifest fs source)))
    (hkeep : ∀ s, resolve source = some s → s ∉ destPaths pfx (manifest fs source)) :
    Remove (Remove fs pfx source).2 pfx source = (none, (Remove fs pfx source).2) := by
  obtain ⟨fs1, m, data, hm, hs, hs1, hgood, hfs⟩ := Remove_ok fs pfx source hok
  have hpw : (destPaths pfx (manifest fs source)).reverse.Pairwise (fun a b => ¬ Below a b) := by
    rw [List.pairwise_reverse]; exact hpre
  obtain ⟨P, mP, ksP, hrP, hlP⟩ := MkdirAll_isDir fs fs1 pfx _ hm
  obtain ⟨s, hrs, hls⟩ := stat_resolve fs1 source _ hs1
  have hsps : s ∉ (destPaths pfx (manifest fs source)).reverse := by
    rw [List.mem_reverse]; exact hkeep s hrs
  generalize hps : (destPaths pfx (manifest fs source)).reverse = ps at hfs hpw hsps
  generalize hn2 : List.foldl rmAt fs1.root ps = n2 at hfs
  rw [hfs]
  -- the archive is still there
  have hls2 : n2.lookup s = some (.file m data) := by
    have hi := foldl_rmAt_info ps fs1.root s (fun p hp e => hsps (e ▸ hp)) (by simp [hls]) s
      (List.prefix_refl _)
    rw [hn2, hls] at hi
    cases hl : n2.lookup s with
    | none => simp [hl] at hi
    | some k =>
      rw [hl] at hi
      simp only [Option.map_some', Option.some.injEq] at hi
      rw [info_file k m data (by simpa [Node.info] using hi)]
  have hstat2 : Stat { fs1 with root := n2 } source = some (.file m data) := by
    simp [Stat, hrs, hls2]
  -- the root is still a directory
  have hroot1 : ∃ m0 ks0, fs1.root.lookup [] = some (.dir m0 ks0) :=
    lookup_prefix_dir fs1.root [] P mP ksP (by simpa using hlP)
  have hinfo : n2.info = fs1.root.info := by rw [← hn2]; exact foldl_rmAt_root_info ps _
  obtain ⟨m0, ks0, hroot2⟩ : ∃ m0 ks0, n2.lookup [] = some (.dir m0 ks0) := by
    obtain ⟨a, b, hab⟩ := hroot1
    rw [lookup_nil] at hab
    rw [Option.some.inj hab] at hinfo
    cases n2 with
    | file x y => simp [Node.info] at hinfo
    | dir x y => exact ⟨x, y, rfl⟩
  have hisdir : n2.isDir = true := by
    rw [lookup_nil] at hroot2
    rw [Option.some.inj hroot2]; rfl
  -- os.MkdirAll and the deletion loop again
  have hset : ∀ p ∈ ps, Settled n2 p := by
    rw [← hn2]; exact foldl_rmAt_settled ps fs1.root hpw
  obtain ⟨n3, hmk, hloop⟩ := mkdirAllFrom_then_loop (masked fs1.umask 0o775) ps n2 hset hpw P []
    m0 ks0 hroot2
    (by
      intro a b hab _ hl
      simp only [List.nil_append] at hl ⊢
      refine foldl_rmAt_removed ps fs1.root a ?_ (by rw [hn2]; exact hl)
      rw [hab] at hlP
      exact lookup_prefix_isSome fs1.root a b (by simp [hlP]))
    (by
      intro a b hab m2 d2 hl
      simp only [List.nil_append] at hl
      rw [← hn2] at hl
      obtain ⟨k, hk, hki⟩ := foldl_rmAt_survivor ps fs1.root a _ hl
      rw [hab] at hlP
      obtain ⟨m3, ks3, h3⟩ := lookup_prefix_dir fs1.root a b mP ksP hlP
      rw [h3] at hk
      cases Option.some.inj hk
      simp [Node.info] at hki)
  have hmkall : MkdirAll { fs1 with root := n2 } pfx 0o775 = .ok { fs1 with root := n3 } := by
    unfold MkdirAll
    simp only [hrP, hisdir, if_true, hmk]
  have hstat3 : Stat { fs1 with root := n3 } source = some (.file m data) := by
    have hi := MkdirAll_info _ _ pfx _ hmkall s (by simp [hls2])
    simp only [FS.infoAt, hls2, Option.map_some'] at hi
    cases hl : n3.lookup s with
    | none => simp [hl] at hi
    | some k =>
      rw [hl] at hi
      simp only [Option.map_some', Option.some.injEq] at hi
      simp [Stat, hrs, hl, info_file k m data (by simpa [Node.info] using hi)]
  have hopen : openArchive { fs1 with root := n2 } pfx source =
      (.ok (decode data), { fs1 with root := n3 }) := by
    unfold openArchive
    have hex : Exists { fs1 with root := n2 } source = true := by simp [Exists, hstat2]
    simp [hex, hmkall, hstat3]
  unfold Remove
  rw [hopen]
  simp only [hgood, Bool.false_eq_true, if_false]
  rw [removeLoop_dests, ← manifest_of_stat fs source m data hs, hps]
  simp only [hloop]

/-- C4, amended, at the scenario: the second `Remove` after unpacking changes
nothing. -/
theorem Remove_twice_witness :
    (Remove unpacked "D" "pkg.tgz").1 = none ∧
    PreOrder (destPaths "D" (manifest unpacked "pkg.tgz")) ∧
    Remove (Remove unpacked "D" "pkg.tgz").2 "D" "pkg.tgz" =
      (none, (Remove unpacked "D" "pkg.tgz").2) :=
  ⟨by decide, by decide,
    Remove_twice unpacked "D" "pkg.tgz" (by decide) (by decide) (by
      intro s hs
      have h2 : resolve "pkg.tgz" = some ["pkg.tgz"] := by decide
      rw [h2] at hs
      cases hs
      decide)⟩

theorem mem_walkNames (walkKid : String → Node → List Entry) (path : String)
    (ks : List (String × Node)) (names : List String) (c : String) (k : Node) (e : Entry)
    (hc : c ∈ names) (hk : kid c ks = some k) (he : e ∈ walkKid (Join path c) k) :
    e ∈ walkNames walkKid path ks names := by
  induction names with
  | nil => simp at hc
  | cons x rest ih =>
    rw [walkNames]
    rcases List.mem_cons.1 hc with rfl | hmem
    · rw [hk]
      exact List.mem_append_left _ he
    · exact List.mem_append_right _ (ih hmem)

theorem mem_walkNames_inv (walkKid : String → Node → List Entry) (path : String)
    (ks : List (String × Node)) (names : List String) (e : Entry)
    (he : e ∈ walkNames walkKid path ks names) :
    ∃ c k, c ∈ names ∧ kid c ks = some k ∧ e ∈ walkKid (Join path c) k := by
  induction names with
  | nil => simp [walkNames] at he
  | cons x rest ih =>
    rw [walkNames] at he
    rcases List.mem_append.1 he with h | h
    · cases hk : kid x ks with
      | none => simp [hk] at h
      | some k =>
        rw [hk] at h
        exact ⟨x, k, List.mem_cons_self _ _, hk, h⟩
    · obtain ⟨c, k, hc, hk, hmem⟩ := ih h
      exact ⟨c, k, List.mem_cons_of_mem _ hc, hk, hmem⟩

/-- No file member of the walk has a base name that starts with `.`. -/
theorem walk_no_hidden (fuel : Nat) (path : String) (node : Node) :
    ∀ e ∈ walk fuel path node, e.isDir = false → hasDotPrefix (Base e.name) = false := by
  induction fuel generalizing path node with
  | zero => intro e he; simp [walk] at he
  | succ fuel ih =>
    intro e he hfile
    cases node with
    | file m d =>
      rw [walk] at he
      split at he
      · simp at he
      · rename_i hh
        rw [List.mem_singleton] at he
        rw [he]
        simpa using hh
    | dir m ks =>
      rw [walk] at he
      rcases List.mem_cons.1 he with h | h
      · rw [h] at hfile; simp at hfile
      · obtain ⟨c, k, _, _, hmem⟩ := mem_walkNames_inv _ _ _ _ _ h
        exact ih _ _ e hmem hfile

/-- Every directory at or beneath the walked node has a member, which
unpacks to the place of the directory. -/
theorem walk_dir_mem (fuel : Nat) (path : String) (node : Node) (q : List String)
    (m : Nat) (ks : List (String × Node)) (hwf : node.wellNamed = true)
    (hrel : isRooted path = false) (hq : node.lookup q = some (.dir m ks))
    (hfuel : node.height < fuel) :
    ∃ e ∈ walk fuel path node, e.isDir = true ∧ e.mode = m ∧
      ∀ pfx P, resolve (Join pfx path) = some P → resolve (Join pfx e.name) = some (P ++ q) := by
  induction fuel generalizing path node q with
  | zero => omega
  | succ fuel ih =>
    cases node with
    | file m0 d0 =>
      cases q with
      | nil => simp [lookup_nil] at hq
      | cons c q => simp [lookup_file_cons] at hq
    | dir m0 ks0 =>
      cases q with
      | nil =>
        rw [lookup_nil] at hq
        cases hq
        refine ⟨⟨dirpath path, true, m, []⟩, by simp [walk], rfl, rfl, ?_⟩
        intro pfx P hP
        rw [resolve_Join_dirpath pfx path (resolve_Join_some pfx path P hP), hP]
        simp
      | cons c q =>
        rw [lookup_dir_cons] at hq
        cases hk : kid c ks0 with
        | none => simp [hk] at hq
        | some k =>
          rw [hk] at hq
          obtain ⟨hpl, hwfk⟩ := wellNamed_kid m0 ks0 c k hwf hk
          have hh : k.height < fuel := by
            have := kid_height c ks0 k hk
            rw [Node.height] at hfuel
            omega
          obtain ⟨e, he, hd, hm, hres⟩ := ih (Join path c) k q hwfk
            (isRooted_Join_plain path c hrel hpl) hq hh
          refine ⟨e, ?_, hd, hm, ?_⟩
          · rw [walk]
            exact List.mem_cons_of_mem _ (mem_walkNames _ _ _ _ c k e
              ((mem_sortedNames ks0 c).2 (mem_names_of_kid ks0 c k hk)) hk he)
          · intro pfx P hP
            rw [hres pfx (P ++ [c]) (resolve_Join_Join pfx path c P hrel hpl hP)]
            simp

/-- Every regular file at or beneath the walked node whose name, and at the
top whose walked name, does not start with `.` has a member with its mode and
content, which unpacks to the place of the file. -/
theorem walk_file_mem (fuel : Nat) (path : String) (node : Node) (q : List String)
    (m : Nat) (d : List Block) (hwf : node.wellNamed = true)
    (hrel : isRooted path = false) (hq : node.lookup q = some (.file m d))
    (htop : q = [] → hasDotPrefix (Base path) = false)
    (hlast : ∀ q0 c, q = q0 ++ [c] → hasDotPrefix c = false)
    (hfuel : node.height < fuel) :
    ∃ e ∈ walk fuel path node, e.isDir = false ∧ e.mode = m ∧ e.data = d ∧
      ∀ pfx P, resolve (Join pfx path) = some P → resolve (Join pfx e.name) = some (P ++ q) := by
  induction fuel generalizing path node q with
  | zero => omega
  | succ fuel ih =>
    cases node with
    | file m0 d0 =>
      cases q with
      | nil =>
        rw [lookup_nil] at hq
        cases hq
        refine ⟨⟨path, false, m, d⟩, by simp [walk, htop rfl], rfl, rfl, rfl, ?_⟩
        intro pfx P hP
        simpa using hP
      | cons c q => simp [lookup_file_cons] at hq
    | dir m0 ks0 =>
      cases q with
      | nil => simp [lookup_nil] at hq
      | cons c q =>
        rw [lookup_dir_cons] at hq
        cases hk : kid c ks0 with
        | none => simp [hk] at hq
        | some k =>
          rw [hk] at hq
          obtain ⟨hpl, hwfk⟩ := wellNamed_kid m0 ks0 c k hwf hk
          have hh : k.height < fuel := by
            have := kid_height c ks0 k hk
            rw [Node.height] at hfuel
            omega
          obtain ⟨e, he, hd, hm, hdt, hres⟩ := ih (Join path c) k q hwfk
            (isRooted_Join_plain path c hrel hpl) hq
            (by
              intro hq0
              rw [Base_Join_plain path c hrel hpl]
              exact hlast [] c (by rw [hq0]; rfl))
            (by
              intro q0 c2 hq0
              exact hlast (c :: q0) c2 (by rw [hq0]; rfl))
            hh
          refine ⟨e, ?_, hd, hm, hdt, ?_⟩
          · rw [walk]
            exact List.mem_cons_of_mem _ (mem_walkNames _ _ _ _ c k e
              ((mem_sortedNames ks0 c).2 (mem_names_of_kid ks0 c k hk)) hk he)
          · intro pfx P hP
            rw [hres pfx (P ++ [c]) (resolve_Join_Join pfx path c P hrel hpl hP)]
            simp

/-! ## C10: the hidden-file filter of the walk -/

/-- C10. For a relative path that exists under the root and leads to a tree
whose listings hold plain, distinct names, `Process` returns a manifest; no
file member of it has a base name that starts with `.`; every directory at or
beneath the walked path has a member, whatever its name; and every regular
file beneath the walked path whose own name does not start with `.` has a
member with its mode and content, also inside a directory whose name starts
with `.`. -/
theorem Process_filter (fs : FS) (pfx path : String) (P : List String) (node : Node)
    (hwfn : node.wellNamed = true) (hrel : isRooted path = false)
    (hres : resolve (Join pfx path) = some P) (hnode : fs.root.lookup P = some node) :
    ∃ es, Process fs pfx path = .ok es ∧
      (∀ e ∈ es, e.isDir = false → hasDotPrefix (Base e.name) = false) ∧
      (∀ q m ks, node.lookup q = some (.dir m ks) →
        ∃ e ∈ es, e.isDir = true ∧ e.mode = m ∧ resolve (Join pfx e.name) = some (P ++ q)) ∧
      (∀ q c m d, node.lookup (q ++ [c]) = some (.file m d) → hasDotPrefix c = false →
        ∃ e ∈ es, e.isDir = false ∧ e.mode = m ∧ e.data = d ∧
          resolve (Join pfx e.name) = some (P ++ (q ++ [c]))) := by
  have hh : node.height < fs.root.height + 1 := by
    have := lookup_height fs.root P node hnode
    omega
  refine ⟨_, Process_eq_walk fs pfx path P node hwfn hrel hres hnode, walk_no_hidden _ _ _, ?_, ?_⟩
  · intro q m ks hq
    obtain ⟨e, he, hd, hm, hr⟩ := walk_dir_mem _ path node q m ks hwfn hrel hq hh
    exact ⟨e, he, hd, hm, hr pfx P hres⟩
  · intro q c m d hq hc
    obtain ⟨e, he, hd, hm, hdt, hr⟩ := walk_file_mem _ path node (q ++ [c]) m d hwfn hrel hq
      (by intro h; simp at h)
      (by
        intro q0 c2 h
        have := List.append_inj' h rfl
        rw [← List.singleton_inj.1 this.2]
        exact hc)
      hh
    exact ⟨e, he, hd, hm, hdt, hr pfx P hres⟩

/-- C10, at a tree with the hidden file `.x` and the hidden directory `.git`:
the walk of `R` returns a manifest with the properties of the filter. -/
theorem Process_filter_witness :
    hiddenNode.wellNamed = true ∧ isRooted "." = false ∧
    resolve (Join "R" ".") = some ["R"] ∧ hiddenTree.root.lookup ["R"] = some hiddenNode ∧
    ∃ es, Process hiddenTree "R" "." = .ok es ∧
      (∀ e ∈ es, e.isDir = false → hasDotPrefix (Base e.name) = false) ∧
      (∀ q m ks, hiddenNode.lookup q = some (.dir m ks) →
        ∃ e ∈ es, e.isDir = true ∧ e.mode = m ∧ resolve (Join "R" e.name) = some (["R"] ++ q)) ∧
      (∀ q c m d, hiddenNode.lookup (q ++ [c]) = some (.file m d) → hasDotPrefix c = false →
        ∃ e ∈ es, e.isDir = false ∧ e.mode = m ∧ e.data = d ∧
          resolve (Join "R" e.name) = some (["R"] ++ (q ++ [c]))) :=
  ⟨by decide, by decide, by decide, rfl,
    Process_filter hiddenTree "R" "." ["R"] hiddenNode (by decide) (by decide) (by decide) rfl⟩

/-! ## C2: the round trip -/

/-- Altering a path changes nothing at a path that is neither above nor
below it. -/
theorem lookup_alter_disjoint (n : Node) (p q : List String) (g : Option Node → Option Node)
    (h1 : ¬ p <+: q) (h2 : ¬ q <+: p) : (n.alter p g).lookup q = n.lookup q := by
  induction p generalizing n q with
  | nil => exact absurd List.nil_prefix h1
  | cons c cs ih =>
    cases q with
    | nil => exact absurd List.nil_prefix h2
    | cons d ds =>
      by_cases hd : d = c
      · subst hd
        have h3 : ¬ cs <+: ds := fun hp => h1 ((List.cons_prefix_cons).2 ⟨rfl, hp⟩)
        have h4 : ¬ ds <+: cs := fun hp => h2 ((List.cons_prefix_cons).2 ⟨rfl, hp⟩)
        cases n with
        | file m dt => rw [alter_file]
        | dir m ks =>
          cases cs with
          | nil => exact absurd List.nil_prefix h3
          | cons c2 cs =>
            rw [lookup_alter_cons_deep, lookup_dir_cons]
            cases kid d ks with
            | none => rfl
            | some k => exact ih k ds h3 h4
      · rw [lookup_alter_cons_ne n hd]

theorem info_dir (k : Node) (h : k.info.isDir = true) : ∃ m ks, k = .dir m ks := by
  cases k with
  | file m d => simp [Node.info] at h
  | dir m ks => exact ⟨m, ks, rfl⟩

/-- The container decodes to the members it was written from. -/
theorem decodeAux_encode (es : List Entry) (n : Nat) (h : (encode es).length ≤ n) :
    decodeAux n (encode es) = (es, false) := by
  induction es generalizing n with
  | nil => cases n <;> rfl
  | cons e es ih =>
    cases n with
    | zero => simp [encode, encodeEntry] at h
    | succ n =>
      have hlen : (encode es).length ≤ n := by
        simp only [encode, encodeEntry, List.cons_append, List.length_cons,
          List.length_append] at h
        omega
      simp only [encode, encodeEntry, List.cons_append, decodeAux, List.length_append,
        List.drop_left, List.take_left, ih n hlen]
      simp [ih n hlen]

theorem decode_encode (es : List Entry) : decode (encode es) = (es, false) :=
  decodeAux_encode es _ (Nat.le_refl _)

theorem validate_none (fs : FS) (pfx : String) (es : List Entry)
    (h : ∀ e ∈ es, e.isDir = false → Exists fs (Join pfx e.name) = false) :
    validate fs pfx es false = none := by
  induction es with
  | nil => rfl
  | cons x xs ih =>
    rw [validate]
    split
    · rename_i hx
      simp only [Bool.and_eq_true, Bool.not_eq_true'] at hx
      rw [h x (List.mem_cons_self _ _) hx.1] at hx
      simp at hx
    · exact ih (fun e he => h e (List.mem_cons_of_mem _ he))

/-- Every member of the walk unpacks at or below the place of the walked
node. -/
theorem walk_mem_dest (fuel : Nat) (path : String) (node : Node) (hwf : node.wellNamed = true)
    (hrel : isRooted path = false) :
    ∀ e ∈ walk fuel path node, ∀ pfx P, resolve (Join pfx path) = some P →
      ∃ q, resolve (Join pfx e.name) = some (P ++ q) := by
  induction fuel generalizing path node with
  | zero => intro e he; simp [walk] at he
  | succ fuel ih =>
    intro e he pfx P hP
    cases node with
    | file m d =>
      rw [walk] at he
      split at he
      · simp at he
      · rw [List.mem_singleton] at he
        exact ⟨[], by rw [he]; simpa using hP⟩
    | dir m ks =>
      rw [walk] at he
      rcases List.mem_cons.1 he with h | h
      · refine ⟨[], ?_⟩
        rw [h]
        simp only [List.append_nil]
        rw [resolve_Join_dirpath pfx path (resolve_Join_some pfx path P hP), hP]
      · obtain ⟨c, k, _, hk, hmem⟩ := mem_walkNames_inv _ _ _ _ _ h
        obtain ⟨hpl, hwfk⟩ := wellNamed_kid m ks c k hwf hk
        obtain ⟨q, hq⟩ := ih (Join path c) k hwfk (isRooted_Join_plain path c hrel hpl) e hmem
          pfx (P ++ [c]) (resolve_Join_Join pfx path c P hrel hpl hP)
        exact ⟨c :: q, by rw [hq]; simp⟩

/-- `os.Mkdir` at a missing path whose parent is a directory: the directory
is there, empty, and the `Info` of no other path has changed. -/
theorem Mkdir_ok (fs : FS) (path : String) (perm : Nat) (Q0 : List String) (c : String)
    (hres : resolve path = some (Q0 ++ [c])) (habs : fs.root.lookup (Q0 ++ [c]) = none)
    (hpar : ∃ i, fs.infoAt Q0 = some i ∧ i.isDir = true) :
    ∃ fs1, Mkdir fs path perm = (none, fs1) ∧ fs1.umask = fs.umask ∧
      fs1.root.lookup (Q0 ++ [c]) = some (.dir (masked fs.umask perm) []) ∧
      (∀ p, ¬ (Q0 ++ [c]) <+: p → fs1.infoAt p = fs.infoAt p) := by
  obtain ⟨i, hi, hdir⟩ := hpar
  simp only [FS.infoAt] at hi
  cases hl : fs.root.lookup Q0 with
  | none => simp [hl] at hi
  | some k =>
    rw [hl] at hi
    simp only [Option.map_some', Option.some.injEq] at hi
    obtain ⟨m, ks, rfl⟩ := info_dir k (by rw [hi]; exact hdir)
    refine ⟨⟨fs.root.alter (Q0 ++ [c]) (fun _ => some (.dir (masked fs.umask perm) [])),
      fs.umask⟩, ?_, rfl, ?_, ?_⟩
    · simp [Mkdir, hres, habs, hl]
    · simp only
      rw [lookup_alter_self fs.root Q0 c _ m ks hl]
    · intro p hp
      exact lookup_alter_info fs.root _ p _ hp

/-- `os.Create` and the copy of the content at a missing path whose parent is
a directory: the file is there with the content, and the `Info` of no other
path has changed. -/
theorem CreateWrite_ok (fs : FS) (path : String) (data : List Block) (Q0 : List String)
    (c : String) (hres : resolve path = some (Q0 ++ [c]))
    (habs : fs.root.lookup (Q0 ++ [c]) = none)
    (hpar : ∃ i, fs.infoAt Q0 = some i ∧ i.isDir = true) :
    ∃ fs1, CreateWrite fs path data = (none, fs1) ∧ fs1.umask = fs.umask ∧
      fs1.root.lookup (Q0 ++ [c]) = some (.file (masked fs.umask 0o666) data) ∧
      (∀ p, ¬ (Q0 ++ [c]) <+: p → fs1.infoAt p = fs.infoAt p) := by
  obtain ⟨i, hi, hdir⟩ := hpar
  simp only [FS.infoAt] at hi
  cases hl : fs.root.lookup Q0 with
  | none => simp [hl] at hi
  | some k =>
    rw [hl] at hi
    simp only [Option.map_some', Option.some.injEq] at hi
    obtain ⟨m, ks, rfl⟩ := info_dir k (by rw [hi]; exact hdir)
    refine ⟨⟨fs.root.alter (Q0 ++ [c]) (fun _ => some (.file (masked fs.umask 0o666) data)),
      fs.umask⟩, ?_, rfl, ?_, ?_⟩
    · simp [CreateWrite, hres, habs, hl]
    · simp only
      rw [lookup_alter_self fs.root Q0 c _ m ks hl]
    · intro p hp
      exact lookup_alter_info fs.root _ p _ hp

theorem not_prefix_sibling (Q : List String) (x y : String) (q : List String) (h : x ≠ y) :
    ¬ (Q ++ [x]) <+: (Q ++ y :: q) := by
  intro hp
  rw [List.prefix_append_right_inj] at hp
  exact h (List.cons_prefix_cons.1 hp).1

theorem not_prefix_parent (Q : List String) (x : String) : ¬ (Q ++ [x]) <+: Q := by
  intro hp
  have := hp.length_le
  simp at this

theorem not_prefix_child (Q p : List String) (x : String) (h : ¬ Q <+: p) :
    ¬ (Q ++ [x]) <+: p :=
  fun hp => h ((List.prefix_append Q [x]).trans hp)

theorem infoAt_eq_none (fs : FS) (p : List String) :
    fs.infoAt p = none ↔ fs.root.lookup p = none := by
  simp [FS.infoAt]

theorem infoAt_of_lookup (fs : FS) (p : List String) (k : Node) (h : fs.root.lookup p = some k) :
    fs.infoAt p = some k.info := by
  simp [FS.infoAt, h]

/-- The apply pass over the members of a walk, started where the place of the
walked node is missing and its parent is a directory, creates the node there
and touches nothing else. -/
theorem apply_walk (D : String) (umask : Nat) (fuel : Nat) :
    ∀ (path : String) (node : Node) (Q0 : List String) (c : String) (fsd : FS)
      (rest : List Entry) (bad : Bool),
      node.wellNamed = true → isRooted path = false → node.height < fuel →
      resolve (Join D path) = some (Q0 ++ [c]) → fsd.umask = umask →
      fsd.root.lookup (Q0 ++ [c]) = none →
      (∃ i, fsd.infoAt Q0 = some i ∧ i.isDir = true) →
      ∃ fsd2, apply D fsd (walk fuel path node ++ rest) bad = apply D fsd2 rest bad ∧
        fsd2.umask = umask ∧
        (∀ p, ¬ (Q0 ++ [c]) <+: p → fsd2.infoAt p = fsd.infoAt p) ∧
        Copied umask (Base path) node (Q0 ++ [c]) fsd2 := by
  induction fuel with
  | zero => intro path node Q0 c fsd rest bad _ _ hh; omega
  | succ fuel ih =>
    intro path node Q0 c fsd rest bad hwf hrel hh hres hum habs hpar
    cases node with
    | file m d =>
      by_cases hhid : hasDotPrefix (Base path) = true
      · refine ⟨fsd, by simp [walk, hhid], hum, fun _ _ => rfl, ?_, ?_⟩
        · intro q m2 ks hq
          cases q with
          | nil => simp [lookup_nil] at hq
          | cons x q => simp [lookup_file_cons] at hq
        · intro q m2 d2 hq hvis
          cases q with
          | nil => simp [hhid] at hvis
          | cons x q => simp [lookup_file_cons] at hq
      · obtain ⟨fs1, hcw, hum1, hl1, hframe⟩ := CreateWrite_ok fsd (Join D path) d Q0 c hres
          habs hpar
        refine ⟨fs1, ?_, by rw [hum1, hum], hframe, ?_, ?_⟩
        · simp only [walk, hhid, Bool.false_eq_true, if_false, List.singleton_append]
          rw [apply]
          simp [hcw]
        · intro q m2 ks hq
          cases q with
          | nil => simp [lookup_nil] at hq
          | cons x q => simp [lookup_file_cons] at hq
        · intro q m2 d2 hq _
          cases q with
          | nil =>
            rw [lookup_nil] at hq
            cases hq
            rw [List.append_nil, infoAt_of_lookup fs1 _ _ hl1, hum]
            rfl
          | cons x q => simp [lookup_file_cons] at hq
    | dir m ks =>
      have hne := resolve_Join_some D path _ hres
      have hres2 : resolve (Join D (dirpath path)) = some (Q0 ++ [c]) := by
        rw [resolve_Join_dirpath D path hne, hres]
      obtain ⟨fs1, hmk, hum1, hl1, hframe1⟩ := Mkdir_ok fsd (Join D (dirpath path)) m Q0 c hres2
        habs hpar
      have hum1' : fs1.umask = umask := by rw [hum1, hum]
      -- the entries of the directory
      have hkids : ∀ (names : List String) (fsa : FS), names.Nodup →
          (∀ x ∈ names, x ∈ ks.map (fun kn => kn.1)) → fsa.umask = umask →
          (∃ i, fsa.infoAt (Q0 ++ [c]) = some i ∧ i.isDir = true) →
          (∀ x ∈ names, fsa.root.lookup ((Q0 ++ [c]) ++ [x]) = none) →
          ∃ fsb, apply D fsa (walkNames (walk fuel) path ks names ++ rest) bad =
              apply D fsb rest bad ∧ fsb.umask = umask ∧
            (∀ p, (∀ x ∈ names, ¬ ((Q0 ++ [c]) ++ [x]) <+: p) → fsb.infoAt p = fsa.infoAt p) ∧
            (∀ x ∈ names, ∀ k, kid x ks = some k →
              Copied umask x k ((Q0 ++ [c]) ++ [x]) fsb) := by
        intro names
        induction names with
        | nil =>
          intro fsa _ _ huma _ _
          exact ⟨fsa, rfl, huma, fun _ _ => rfl, fun x hx => by simp at hx⟩
        | cons x names ihn =>
          intro fsa hnd hmem huma hpara habsa
          rw [List.nodup_cons] at hnd
          obtain ⟨k, hk⟩ := kid_of_mem_names ks x (hmem x (List.mem_cons_self _ _))
          obtain ⟨hpl, hwfk⟩ := wellNamed_kid m ks x k hwf hk
          have hhk : k.height < fuel := by
            have := kid_height x ks k hk
            rw [Node.height] at hh
            omega
          obtain ⟨fsA, happ, humA, hframeA, hcopA⟩ := ih (Join path x) k (Q0 ++ [c]) x fsa
            (walkNames (walk fuel) path ks names ++ rest) bad hwfk
            (isRooted_Join_plain path x hrel hpl) hhk
            (resolve_Join_Join D path x _ hrel hpl hres) huma
            (habsa x (List.mem_cons_self _ _)) hpara
          rw [Base_Join_plain path x hrel hpl] at hcopA
          have hparA : ∃ i, fsA.infoAt (Q0 ++ [c]) = some i ∧ i.isDir = true := by
            rw [hframeA _ (not_prefix_parent _ x)]
            exact hpara
          have habsA : ∀ y ∈ names, fsA.root.lookup ((Q0 ++ [c]) ++ [y]) = none := by
            intro y hy
            have hxy : x ≠ y := fun e => hnd.1 (e ▸ hy)
            rw [← infoAt_eq_none, hframeA _ (not_prefix_sibling _ x y [] hxy), infoAt_eq_none]
            exact habsa y (List.mem_cons_of_mem _ hy)
          obtain ⟨fsb, happb, humb, hframeb, hcopb⟩ := ihn fsA hnd.2
            (fun y hy => hmem y (List.mem_cons_of_mem _ hy)) humA hparA habsA
          refine ⟨fsb, ?_, humb, ?_, ?_⟩
          · rw [walkNames, hk, List.append_assoc, happ, happb]
          · intro p hp
            rw [hframeb p (fun y hy => hp y (List.mem_cons_of_mem _ hy)),
              hframeA p (hp x (List.mem_cons_self _ _))]
          · intro y hy k2 hk2
            by_cases hyn : y ∈ names
            · exact hcopb y hyn k2 hk2
            · rcases List.mem_cons.1 hy with rfl | hy2
              · rw [hk] at hk2
                cases hk2
                have htrans : ∀ q, fsb.infoAt (((Q0 ++ [c]) ++ [y]) ++ q) =
                    fsA.infoAt (((Q0 ++ [c]) ++ [y]) ++ q) := by
                  intro q
                  apply hframeb
                  intro z hz
                  have hzy : z ≠ y := fun e => hnd.1 (e ▸ hz)
                  have h := not_prefix_sibling (Q0 ++ [c]) z y q hzy
                  simpa [List.append_assoc] using h
                exact ⟨fun q m2 ks2 hq => by rw [htrans]; exact hcopA.1 q m2 ks2 hq,
                  fun q m2 d2 hq hv => by rw [htrans]; exact hcopA.2 q m2 d2 hq hv⟩
              · exact absurd hy2 hyn
      have hnd := sortedNames_nodup ks (wellNamed_nodup m ks hwf)
      obtain ⟨fsb, happb, humb, hframeb, hcopb⟩ := hkids (sortedNames ks) fs1 hnd
        (fun x hx => (mem_sortedNames ks x).1 hx) hum1'
        ⟨_, infoAt_of_lookup fs1 _ _ hl1, rfl⟩
        (fun x _ => by rw [lookup_append, hl1]; rfl)
      refine ⟨fsb, ?_, humb, ?_, ?_, ?_⟩
      · rw [walk, List.cons_append, apply]
        simp only [if_true, hmk]
        exact happb
      · intro p hp
        rw [hframeb p (fun x _ => not_prefix_child _ p x hp), hframe1 p hp]
      · intro q m2 ks2 hq
        cases q with
        | nil =>
          rw [lookup_nil] at hq
          cases hq
          rw [List.append_nil, hframeb _ (fun x _ => not_prefix_parent _ x),
            infoAt_of_lookup fs1 _ _ hl1, hum]
          rfl
        | cons x q =>
          rw [lookup_dir_cons] at hq
          cases hk : kid x ks with
          | none => simp [hk] at hq
          | some k =>
            rw [hk] at hq
            have := (hcopb x ((mem_sortedNames ks x).2 (mem_names_of_kid ks x k hk)) k hk).1
              q m2 ks2 hq
            simpa using this
      · intro q m2 d2 hq hvis
        cases q with
        | nil => simp [lookup_nil] at hq
        | cons x q =>
          rw [lookup_dir_cons] at hq
          cases hk : kid x ks with
          | none => simp [hk] at hq
          | some k =>
            rw [hk] at hq
            have := (hcopb x ((mem_sortedNames ks x).2 (mem_names_of_kid ks x k hk)) k hk).2
              q m2 d2 hq (by simpa [List.getLast_cons] using hvis)
            simpa using this

theorem resolve_some_ne_empty (s : String) (P : List String) (h : resolve s = some P) :
    s ≠ "" := by
  intro hs
  simp [resolve, hs] at h

/-- The destination of a plain name under a root. -/
theorem resolve_Join_name (D c : String) (PD : List String) (hD : resolve D = some PD)
    (hc : PlainName c) : resolve (Join D c) = some (PD ++ [c]) := by
  have hne := resolve_some_ne_empty D PD hD
  rw [resolve_of_ne_empty D hne] at hD
  rw [resolve_Join D c (fun e => hne e.1), elems_of_slashFree c hc.2.2.2,
    cleanElems_append_plain _ _ _ hc, Option.some.inj hD]

theorem isRooted_plain (c : String) (hc : PlainName c) : isRooted c = false := by
  have := isRooted_joinSlash c [] hc.1 hc.2.2.2
  simpa [joinSlash] using this

theorem Base_plain (c : String) (hc : PlainName c) : Base c = c := by
  unfold Base
  rw [if_neg hc.1, elems_of_slashFree c hc.2.2.2]
  simp [List.dropWhile, hc.1]

/-- What `Archive` does when the source exists, the target is a fresh path in
an existing directory, and the target lies outside the walked tree: it
succeeds, the target holds the container of the walk, and the `Info` of no
path outside the target has changed. -/
theorem Archive_ok (fs : FS) (src rel A : String) (PS T0 : List String) (a : String)
    (node : Node) (hrel : isRooted rel = false)
    (hsrc : resolve (Join src rel) = some PS) (hnode : fs.root.lookup PS = some node)
    (hwf : node.wellNamed = true)
    (hA : resolve A = some (T0 ++ [a])) (hAfresh : fs.root.lookup (T0 ++ [a]) = none)
    (hApar : ∃ i, fs.infoAt T0 = some i ∧ i.isDir = true)
    (hAsrc : ¬ PS <+: T0 ++ [a]) :
    ∃ fsA fuel, Archive fs src rel A = (none, fsA) ∧ fsA.umask = fs.umask ∧
      node.height < fuel ∧
      (∃ mA, Stat fsA A = some (.file mA (encode (walk fuel rel node)))) ∧
      (∀ p, ¬ (T0 ++ [a]) <+: p → fsA.infoAt p = fs.infoAt p) := by
  obtain ⟨fs1, hcw, hum1, hl1, hframe1⟩ := CreateWrite_ok fs A [] T0 a hA hAfresh hApar
  have hroot1 : fs1.root = fs.root.alter (T0 ++ [a])
      (fun _ => some (.file (masked fs.umask 0o666) [])) := by
    have := congrArg Prod.snd hcw
    simp only [CreateWrite, hA, hAfresh] at this
    obtain ⟨i, hi, hdir⟩ := hApar
    simp only [FS.infoAt] at hi
    cases hl : fs.root.lookup T0 with
    | none => simp [hl] at hi
    | some k =>
      rw [hl] at hi
      simp only [Option.map_some', Option.some.injEq] at hi
      obtain ⟨m, ks, rfl⟩ := info_dir k (by rw [hi]; exact hdir)
      have hd : (T0 ++ [a]).dropLast = T0 := by simp
      rw [hd, hl] at this
      simp only at this
      rw [← this]
  have hnot : ¬ (T0 ++ [a]) <+: PS := by
    rintro ⟨t, ht⟩
    have := lookup_prefix_isSome fs.root (T0 ++ [a]) t (by rw [ht, hnode]; rfl)
    rw [hAfresh] at this
    simp at this
  have hnode1 : fs1.root.lookup PS = some node := by
    rw [hroot1, lookup_alter_disjoint _ _ _ _ hnot hAsrc, hnode]
  have hproc := Process_eq_walk fs1 src rel PS node hwf hrel hsrc hnode1
  have hstat1 : Stat fs1 A = some (.file (masked fs.umask 0o666) []) := by
    rw [Stat_of_resolve fs1 A _ hA, hl1]
  -- the parent of the target is still a directory
  obtain ⟨mT, ksT, hT0⟩ : ∃ m ks, fs1.root.lookup T0 = some (.dir m ks) := by
    obtain ⟨i, hi, hdir⟩ := hApar
    have h1 := hframe1 T0 (not_prefix_parent T0 a)
    rw [hi] at h1
    simp only [FS.infoAt] at h1
    cases hl : fs1.root.lookup T0 with
    | none => simp [hl] at h1
    | some k =>
      rw [hl] at h1
      simp only [Option.map_some', Option.some.injEq] at h1
      obtain ⟨m, ks, rfl⟩ := info_dir k (by rw [h1]; exact hdir)
      exact ⟨m, ks, rfl⟩
  refine ⟨⟨fs1.root.alter (T0 ++ [a]) (fun _ => some (.file (masked fs.umask 0o666)
    (encode (walk (fs1.root.height + 1) rel node)))), fs1.umask⟩, fs1.root.height + 1,
    ?_, hum1, ?_, ⟨masked fs.umask 0o666, ?_⟩, ?_⟩
  · have hex1 : Exists fs (Join src rel) = true := by
      simp [Exists, Stat_of_resolve fs _ PS hsrc, hnode]
    have hex2 : Exists fs A = false := by
      simp [Exists, Stat_of_resolve fs _ _ hA, hAfresh]
    unfold Archive
    simp only [hex1, hex2, Bool.not_true, Bool.false_eq_true, if_false, hcw, hproc]
    simp [CreateWrite, hA, hl1]
  · have := lookup_height fs1.root PS node hnode1
    omega
  · rw [Stat_of_resolve _ A _ hA]
    simp only
    rw [lookup_alter_self fs1.root T0 a _ mT ksT hT0]
  · intro p hp
    rw [← hframe1 p hp]
    exact lookup_alter_info fs1.root _ p _ hp

/-- C2, as stated, fails: for the tree of the scenario and the relative path
`.`, `Archive` succeeds and `Unpack` into the empty directory `D` fails,
because the first member `./` names the destination root itself and
`os.Mkdir` finds it already there. -/
theorem Unpack_dot_fails :
    Exists scenario (Join "R" ".") = true ∧ Empty scenario "D" = true ∧
    (Archive scenario "R" "." "pkg.tgz").1 = none ∧
    (Unpack (Archive scenario "R" "." "pkg.tgz").2 "D" "pkg.tgz").1 = some .mkdir := by
  decide

/-- C2, amended. When the relative path is a single plain name, the tree it
leads to holds plain, distinct names, the destination is an empty directory,
and the target is a fresh path in an existing directory outside the walked
tree and outside the destination, then `Archive` and `Unpack` both succeed,
and under the destination every directory of the tree stands at its relative
path with its mode less the umask, and every regular file of the tree whose
name does not start with `.` stands at its relative path with its content. -/
theorem Archive_Unpack (fs : FS) (src rel A D : String) (PS PD T0 : List String) (a : String)
    (node : Node) (mD : Nat) (hrel : PlainName rel)
    (hsrc : resolve (Join src rel) = some PS) (hnode : fs.root.lookup PS = some node)
    (hwf : node.wellNamed = true)
    (hD : resolve D = some PD) (hDempty : fs.root.lookup PD = some (.dir mD []))
    (hA : resolve A = some (T0 ++ [a])) (hAfresh : fs.root.lookup (T0 ++ [a]) = none)
    (hApar : ∃ i, fs.infoAt T0 = some i ∧ i.isDir = true)
    (hAsrc : ¬ PS <+: T0 ++ [a]) (hAD : ¬ PD <+: T0 ++ [a]) :
    (Archive fs src rel A).1 = none ∧
    (Unpack (Archive fs src rel A).2 D A).1 = none ∧
    (∀ q m ks, node.lookup q = some (.dir m ks) →
      (Unpack (Archive fs src rel A).2 D A).2.infoAt (PD ++ rel :: q) =
        some ⟨true, masked fs.umask m, []⟩) ∧
    (∀ q m d, node.lookup q = some (.file m d) →
      hasDotPrefix ((rel :: q).getLast (List.cons_ne_nil _ _)) = false →
      ∃ m2, (Unpack (Archive fs src rel A).2 D A).2.infoAt (PD ++ rel :: q) =
        some ⟨false, m2, d⟩) := by
  have hrelr := isRooted_plain rel hrel
  obtain ⟨fsA, fuel, harch, humA, hfuel, ⟨mA, hstatA⟩, hframeA⟩ :=
    Archive_ok fs src rel A PS T0 a node hrelr hsrc hnode hwf hA hAfresh hApar hAsrc
  rw [harch]
  simp only
  -- the destination after `Archive`
  have hnotD : ¬ (T0 ++ [a]) <+: PD := by
    rintro ⟨t, ht⟩
    have := lookup_prefix_isSome fs.root (T0 ++ [a]) t (by rw [ht, hDempty]; rfl)
    rw [hAfresh] at this
    simp at this
  have hDinfo : fsA.infoAt PD = some ⟨true, mD, []⟩ := by
    rw [hframeA PD hnotD, infoAt_of_lookup fs PD _ hDempty]
    rfl
  obtain ⟨mD2, ksD, hDA⟩ : ∃ m ks, fsA.root.lookup PD = some (.dir m ks) := by
    simp only [FS.infoAt] at hDinfo
    cases hl : fsA.root.lookup PD with
    | none => simp [hl] at hDinfo
    | some k =>
      rw [hl] at hDinfo
      simp only [Option.map_some', Option.some.injEq] at hDinfo
      obtain ⟨m, ks, rfl⟩ := info_dir k (by rw [hDinfo])
      exact ⟨m, ks, rfl⟩
  have hQabs : fsA.root.lookup (PD ++ [rel]) = none := by
    have hn : ¬ (T0 ++ [a]) <+: PD ++ [rel] := by
      intro hp
      rcases List.prefix_concat_iff.1 hp with h | h
      · exact hAD (h ▸ List.prefix_append PD [rel])
      · exact hnotD h
    rw [← infoAt_eq_none, hframeA _ hn, infoAt_eq_none]
    exact lookup_below_empty fs.root PD rel [] mD hDempty
  have hresQ := resolve_Join_name D rel PD hD hrel
  -- `open`
  have hopen : openArchive fsA D A = (.ok (walk fuel rel node, false), fsA) := by
    unfold openArchive
    have hex : Exists fsA A = true := by simp [Exists, hstatA]
    simp [hex, MkdirAll_idem fsA D 0o775 PD mD2 ksD hD hDA, hstatA, decode_encode]
  -- the validate pass
  have hval : validate fsA D (walk fuel rel node) false = none := by
    apply validate_none
    intro e he _
    obtain ⟨q, hq⟩ := walk_mem_dest fuel rel node hwf hrelr e he D (PD ++ [rel]) hresQ
    have hnone : fsA.root.lookup ((PD ++ [rel]) ++ q) = none := by
      cases hl : fsA.root.lookup ((PD ++ [rel]) ++ q) with
      | none => rfl
      | some k =>
        have := lookup_prefix_isSome fsA.root (PD ++ [rel]) q (by rw [hl]; rfl)
        rw [hQabs] at this
        simp at this
    rw [Exists, Stat_of_resolve fsA _ _ hq, hnone]
  -- the apply pass
  obtain ⟨fsd, happ, _, _, hcop⟩ := apply_walk D fs.umask fuel rel node PD rel fsA [] false
    hwf hrelr hfuel hresQ humA hQabs ⟨_, hDinfo, rfl⟩
  rw [List.append_nil] at happ
  have hun : Unpack fsA D A = (none, fsd) := by
    unfold Unpack
    simp only [hopen, hval, happ]
    rfl
  rw [hun]
  rw [Base_plain rel hrel] at hcop
  refine ⟨trivial, rfl, ?_, ?_⟩
  · intro q m ks hq
    have := hcop.1 q m ks hq
    simpa using this
  · intro q m d hq hv
    have := hcop.2 q m d hq hv
    exact ⟨_, by simpa using this⟩

/-- C2, amended, at the scenario: `R/src` is archived and unpacked into `D`. -/
theorem Archive_Unpack_witness :
    PlainName "src" ∧ resolve (Join "R" "src") = some ["R", "src"] ∧
    sourceTree.root.lookup ["R", "src"] = some srcNode ∧ srcNode.wellNamed = true ∧
    sourceTree.root.lookup ["D"] = some (.dir 0o755 []) ∧
    (Archive sourceTree "R" "src" "pkg.tgz").1 = none ∧
    (Unpack (Archive sourceTree "R" "src" "pkg.tgz").2 "D" "pkg.tgz").1 = none ∧
    (∀ q m ks, srcNode.lookup q = some (.dir m ks) →
      (Unpack (Archive sourceTree "R" "src" "pkg.tgz").2 "D" "pkg.tgz").2.infoAt
        (["D"] ++ "src" :: q) = some ⟨true, masked sourceTree.umask m, []⟩) ∧
    (∀ q m d, srcNode.lookup q = some (.file m d) →
      hasDotPrefix (("src" :: q).getLast (List.cons_ne_nil _ _)) = false →
      ∃ m2, (Unpack (Archive sourceTree "R" "src" "pkg.tgz").2 "D" "pkg.tgz").2.infoAt
        (["D"] ++ "src" :: q) = some ⟨false, m2, d⟩) :=
  ⟨by decide, by decide, rfl, by decide, rfl,
    Archive_Unpack sourceTree "R" "src" "pkg.tgz" "D" ["R", "src"] ["D"] [] "pkg.tgz" srcNode
      0o755 (by decide) (by decide) rfl (by decide) (by decide) rfl (by decide) rfl
      ⟨_, rfl, rfl⟩ (by decide) (by decide)⟩

/-! ## C11: the pre-order of the manifest -/

theorem hasSlashSuffix_dirpath (path : String) : hasSlashSuffix (dirpath path) = true := by
  unfold dirpath
  by_cases h : hasSlashSuffix path = true
  · simp [h]
  · simp only [h, Bool.not_false, if_true]
    simp [hasSlashSuffix, String.data_append]

/-- The name of every directory member of the walk ends with `/`. -/
theorem walk_dir_suffix (fuel : Nat) (path : String) (node : Node) :
    ∀ e ∈ walk fuel path node, e.isDir = true → hasSlashSuffix e.name = true := by
  induction fuel generalizing path node with
  | zero => intro e he; simp [walk] at he
  | succ fuel ih =>
    intro e he hdir
    cases node with
    | file m d =>
      rw [walk] at he
      split at he
      · simp at he
      · rw [List.mem_singleton] at he
        rw [he] at hdir
        simp at hdir
    | dir m ks =>
      rw [walk] at he
      rcases List.mem_cons.1 he with h | h
      · rw [h]; exact hasSlashSuffix_dirpath path
      · obtain ⟨c, k, _, _, hmem⟩ := mem_walkNames_inv _ _ _ _ _ h
        exact ih _ _ e hmem hdir

/-- Every member written for the entries of a directory stands for a node
below the directory and unpacks to the place of that node. -/
theorem walkNames_mem_node (fuel : Nat) (path : String) (m : Nat) (ks : List (String × Node))
    (names : List String) (hwf : (Node.dir m ks).wellNamed = true)
    (hrel : isRooted path = false)
    (ih : ∀ (path : String) (node : Node), node.wellNamed = true → isRooted path = false →
      ∀ e ∈ walk fuel path node, ∃ q x, node.lookup q = some x ∧
        ∀ pfx P, resolve (Join pfx path) = some P → resolve (Join pfx e.name) = some (P ++ q)) :
    ∀ e ∈ walkNames (walk fuel) path ks names, ∃ c q x, c ∈ names ∧
      (Node.dir m ks).lookup (c :: q) = some x ∧
      ∀ pfx P, resolve (Join pfx path) = some P →
        resolve (Join pfx e.name) = some (P ++ c :: q) := by
  intro e he
  obtain ⟨c, k, hc, hk, hmem⟩ := mem_walkNames_inv _ _ _ _ _ he
  obtain ⟨hpl, hwfk⟩ := wellNamed_kid m ks c k hwf hk
  obtain ⟨q, x, hq, hres⟩ := ih (Join path c) k hwfk (isRooted_Join_plain path c hrel hpl) e hmem
  refine ⟨c, q, x, hc, ?_, ?_⟩
  · rw [lookup_dir_cons, hk]
    exact hq
  · intro pfx P hP
    rw [hres pfx (P ++ [c]) (resolve_Join_Join pfx path c P hrel hpl hP)]
    simp

/-- Every member of the walk stands for a node at or below the walked node and
unpacks to the place of that node. -/
theorem walk_mem_node (fuel : Nat) (path : String) (node : Node) (hwf : node.wellNamed = true)
    (hrel : isRooted path = false) :
    ∀ e ∈ walk fuel path node, ∃ q x, node.lookup q = some x ∧
      ∀ pfx P, resolve (Join pfx path) = some P → resolve (Join pfx e.name) = some (P ++ q) := by
  induction fuel generalizing path node with
  | zero => intro e he; simp [walk] at he
  | succ fuel ih =>
    intro e he
    cases node with
    | file m d =>
      rw [walk] at he
      split at he
      · simp at he
      · rw [List.mem_singleton] at he
        exact ⟨[], _, lookup_nil _, fun pfx P hP => by rw [he]; simpa using hP⟩
    | dir m ks =>
      rw [walk] at he
      rcases List.mem_cons.1 he with h | h
      · refine ⟨[], _, lookup_nil _, fun pfx P hP => ?_⟩
        rw [h]
        simp only [List.append_nil]
        rw [resolve_Join_dirpath pfx path (resolve_Join_some pfx path P hP), hP]
      · obtain ⟨c, q, x, _, hq, hres⟩ :=
          walkNames_mem_node fuel path m ks _ hwf hrel (fun p n hn hr => ih p n hn hr) e h
        exact ⟨c :: q, x, hq, hres⟩

theorem not_below_of_append (P q : List String) : ¬ Below (P ++ q) P := by
  intro h
  apply h.2
  have hlen := h.1.length_le
  simp only [List.length_append] at hlen
  have hq : q = [] := List.length_eq_zero.1 (by omega)
  rw [hq, List.append_nil]

/-- In the walk no member comes before a member it unpacks below: a
directory comes before everything nested under it. -/
theorem walk_pairwise (pfx : String) (fuel : Nat) (path : String) (node : Node)
    (P : List String) (hwf : node.wellNamed = true) (hrel : isRooted path = false)
    (hres : resolve (Join pfx path) = some P) :
    (walk fuel path node).Pairwise (fun a b => ∀ pa pb, resolve (Join pfx a.name) = some pa →
      resolve (Join pfx b.name) = some pb → ¬ Below pb pa) := by
  induction fuel generalizing path node P with
  | zero => simp [walk]
  | succ fuel ih =>
    cases node with
    | file m d =>
      rw [walk]
      split
      · exact List.Pairwise.nil
      · exact List.pairwise_singleton _ _
    | dir m ks =>
      rw [walk, List.pairwise_cons]
      have hnode := walkNames_mem_node fuel path m ks
      have hne := resolve_Join_some pfx path P hres
      constructor
      · intro b hb pa pb hpa hpb
        obtain ⟨c, q, x, _, _, hdest⟩ := hnode (sortedNames ks) hwf hrel
          (fun p n hn hr => walk_mem_node fuel p n hn hr) b hb
        rw [hdest pfx P hres] at hpb
        simp only at hpa
        rw [resolve_Join_dirpath pfx path hne, hres] at hpa
        cases hpa
        cases hpb
        exact not_below_of_append _ (c :: q)
      · have hkids : ∀ names : List String, names.Nodup →
            (walkNames (walk fuel) path ks names).Pairwise (fun a b => ∀ pa pb,
              resolve (Join pfx a.name) = some pa → resolve (Join pfx b.name) = some pb →
                ¬ Below pb pa) := by
          intro names
          induction names with
          | nil => intro _; exact List.Pairwise.nil
          | cons c rest ihn =>
            intro hnd
            rw [List.nodup_cons] at hnd
            rw [walkNames, List.pairwise_append]
            refine ⟨?_, ihn hnd.2, ?_⟩
            · cases hk : kid c ks with
              | none => exact List.Pairwise.nil
              | some k =>
                obtain ⟨hpl, hwfk⟩ := wellNamed_kid m ks c k hwf hk
                exact ih (Join path c) k (P ++ [c]) hwfk (isRooted_Join_plain path c hrel hpl)
                  (resolve_Join_Join pfx path c P hrel hpl hres)
            · intro a ha b hb pa pb hpa hpb hbelow
              cases hk : kid c ks with
              | none => rw [hk] at ha; simp at ha
              | some k =>
                rw [hk] at ha
                obtain ⟨hpl, hwfk⟩ := wellNamed_kid m ks c k hwf hk
                obtain ⟨qa, _, _, hda⟩ := walk_mem_node fuel (Join path c) k hwfk
                  (isRooted_Join_plain path c hrel hpl) a ha
                rw [hda pfx (P ++ [c]) (resolve_Join_Join pfx path c P hrel hpl hres)] at hpa
                obtain ⟨c2, qb, _, hc2, _, hdb⟩ := hnode rest hwf hrel
                  (fun p n hn hr => walk_mem_node fuel p n hn hr) b hb
                rw [hdb pfx P hres] at hpb
                cases hpa
                cases hpb
                have hcc : c2 ≠ c := fun e => hnd.1 (e ▸ hc2)
                have h1 : (P ++ [c2]) <+: (P ++ c2 :: qb) := ⟨qb, by simp⟩
                have h2 := h1.trans hbelow.1
                rw [List.append_assoc] at h2
                exact not_prefix_sibling P c2 c qa hcc h2
        exact hkids (sortedNames ks) (sortedNames_nodup ks (wellNamed_nodup m ks hwf))

/-- C11. For a relative path that exists under the root and leads to a tree
whose listings hold plain, distinct names, `Process` returns: the recursion
ends and gives a manifest.  In it the name of every directory member ends
with `/`; no member comes before a member it is nested under, so the member
of a directory comes before the member of everything nested under it; and
every member other than the first has the member of its parent directory
earlier in the sequence. -/
theorem Process_preorder (fs : FS) (pfx path : String) (P : List String) (node : Node)
    (hwfn : node.wellNamed = true) (hrel : isRooted path = false)
    (hres : resolve (Join pfx path) = some P) (hnode : fs.root.lookup P = some node) :
    ∃ es, Process fs pfx path = .ok es ∧
      (∀ e ∈ es, e.isDir = true → hasSlashSuffix e.name = true) ∧
      PreOrder (destPaths pfx es) ∧
      (∀ l1 e l2, es = l1 ++ e :: l2 → ∀ d ∈ es, ∀ pd pe,
        resolve (Join pfx d.name) = some pd → resolve (Join pfx e.name) = some pe →
        Below pd pe → d ∈ l1) ∧
      (∀ l1 e l2, es = l1 ++ e :: l2 → l1 ≠ [] →
        ∃ d ∈ l1, d.isDir = true ∧ ∃ p c, resolve (Join pfx d.name) = some p ∧
          resolve (Join pfx e.name) = some (p ++ [c])) := by
  have hh : node.height < fs.root.height + 1 := by
    have := lookup_height fs.root P node hnode
    omega
  have hpw := walk_pairwise pfx (fs.root.height + 1) path node P hwfn hrel hres
  generalize hes : walk (fs.root.height + 1) path node = es at hpw
  have hbefore : ∀ l1 e l2, es = l1 ++ e :: l2 → ∀ d ∈ es, ∀ pd pe,
      resolve (Join pfx d.name) = some pd → resolve (Join pfx e.name) = some pe →
      Below pd pe → d ∈ l1 := by
    intro l1 e l2 hsplit d hd pd pe hpd hpe hbelow
    rw [hsplit] at hd hpw
    rw [List.pairwise_append, List.pairwise_cons] at hpw
    rcases List.mem_append.1 hd with h | h
    · exact h
    · exfalso
      rcases List.mem_cons.1 h with h | h
      · rw [h, hpe] at hpd
        cases hpd
        exact hbelow.2 rfl
      · exact hpw.2.1.1 d h pe pd hpe hpd hbelow
  refine ⟨es, ?_, ?_, ?_, hbefore, ?_⟩
  · rw [← hes]
    exact Process_eq_walk fs pfx path P node hwfn hrel hres hnode
  · rw [← hes]
    exact walk_dir_suffix _ _ _
  · rw [PreOrder, destPaths, List.pairwise_filterMap]
    refine hpw.imp ?_
    intro a b hab pa hpa pb hpb
    exact hab pa pb hpa hpb
  · intro l1 e l2 hsplit hl1
    -- the node of `e` lies strictly below the walked node
    have hemem : e ∈ walk (fs.root.height + 1) path node := by
      rw [hes, hsplit]; simp
    obtain ⟨q, x, hq, hdest⟩ := walk_mem_node _ path node hwfn hrel e hemem
    have hpe := hdest pfx P hres
    have hqne : q ≠ [] := by
      intro hq0
      subst hq0
      -- the first member unpacks to `P` or below it, and would come after `e`
      cases l1 with
      | nil => exact hl1 rfl
      | cons d0 l1 =>
        have hd0 : d0 ∈ walk (fs.root.height + 1) path node := by
          rw [hes, hsplit]; simp
        obtain ⟨q0, _, _, hdest0⟩ := walk_mem_node _ path node hwfn hrel d0 hd0
        have hp0 := hdest0 pfx P hres
        rw [hsplit, List.cons_append, List.pairwise_cons] at hpw
        have hR := hpw.1 e (by simp) (P ++ q0) (P ++ []) hp0 hpe
        by_cases hq0 : q0 = []
        · -- two members at `P`: the directory member is the only one
          subst hq0
          rw [← hes] at hsplit
          cases hfuel : fs.root.height + 1 with
          | zero => omega
          | succ f =>
            rw [hfuel] at hsplit hemem hd0
            cases node with
            | file m d =>
              rw [walk] at hsplit
              split at hsplit
              · simp at hsplit
              · have := congrArg List.length hsplit
                simp at this
            | dir m ks =>
              rw [walk] at hsplit
              simp only [List.cons_append, List.cons.injEq] at hsplit
              have hetail : e ∈ walkNames (walk f) path ks (sortedNames ks) := by
                rw [hsplit.2]; simp
              obtain ⟨c, q1, _, _, _, hdest1⟩ := walkNames_mem_node f path m ks _ hwfn hrel
                (fun p n hn hr => walk_mem_node f p n hn hr) e hetail
              rw [hdest1 pfx P hres] at hpe
              have := congrArg (fun o => o.map List.length) hpe
              simp at this
        · apply hR
          refine ⟨⟨q0, by simp⟩, fun h => hq0 ?_⟩
          simpa using h.symm
    obtain ⟨q0, c, rfl⟩ : ∃ q0 c, q = q0 ++ [c] :=
      ⟨q.dropLast, q.getLast hqne, (List.dropLast_append_getLast hqne).symm⟩
    obtain ⟨m, ks, hpar, _⟩ := lookup_parent node q0 c x hq
    obtain ⟨d, hd, hdir, _, hdd⟩ := walk_dir_mem _ path node q0 m ks hwfn hrel hpar hh
    have hpd := hdd pfx P hres
    rw [hes] at hd
    refine ⟨d, ?_, hdir, P ++ q0, c, hpd, by rw [hpe]; simp⟩
    exact hbefore l1 e l2 hsplit d hd (P ++ q0) (P ++ (q0 ++ [c])) hpd hpe
      ⟨⟨[c], by simp⟩, fun h => by
        have := congrArg List.length h
        simp at this⟩

/-- C11, at the tree of the scenario: the walk of `R/src` returns a manifest
in pre-order. -/
theorem Process_preorder_witness :
    srcNode.wellNamed = true ∧ isRooted "src" = false ∧
    resolve (Join "R" "src") = some ["R", "src"] ∧
    sourceTree.root.lookup ["R", "src"] = some srcNode ∧
    ∃ es, Process sourceTree "R" "src" = .ok es ∧
      (∀ e ∈ es, e.isDir = true → hasSlashSuffix e.name = true) ∧
      PreOrder (destPaths "R" es) ∧
      (∀ l1 e l2, es = l1 ++ e :: l2 → ∀ d ∈ es, ∀ pd pe,
        resolve (Join "R" d.name) = some pd → resolve (Join "R" e.name) = some pe →
        Below pd pe → d ∈ l1) ∧
      (∀ l1 e l2, es = l1 ++ e :: l2 → l1 ≠ [] →
        ∃ d ∈ l1, d.isDir = true ∧ ∃ p c, resolve (Join "R" d.name) = some p ∧
          resolve (Join "R" e.name) = some (p ++ [c])) :=
  ⟨by decide, by decide, by decide, rfl,
    Process_preorder sourceTree "R" "src" ["R", "src"] srcNode (by decide) (by decide)
      (by decide) rfl⟩

end Tar
